import Mathlib

/-!
Shallow embedding of `src/autotrader.py` (Optiver Ready Trader Go autotrader).

Conventions of the embedding:
* Python ints are `Int` (prices, volumes, positions) or `Nat` (order ids,
  sequence numbers, list lengths).
* Python sets of order ids are `List Nat` without duplicates (`setAdd` /
  `setDiscard` give the set semantics).
* The floating-point computations of the source (the Avellaneda-Stoikov price
  model of lines 137-146, the gmean/EMA comparisons of lines 399-406, and the
  volatility estimate of line 300) cannot be embedded shallowly; their integer
  or boolean results enter the step function as explicit oracle parameters
  carried by the event.  Every other computation is translated directly.
* Wall-clock times (`event_loop.time()`) are integer oracle inputs: every
  handler consumes the clock only through order comparisons, so integer-valued
  oracle times realise every attainable branch outcome.
* The constant fractions of the source (`0.3`, `0.2`, `0.5`, hedge ratios) are
  embedded as exact rationals.
* The unused fields `ask_id`, `ask_price`, `bid_id`, `bid_price` of the source
  (initialised once, never read or written afterwards) are omitted from the
  state record.
-/

/- ### Configuration constants (src/autotrader.py lines 27-47) -/

def LOT_SIZE : Int := 30
def POSITION_LIMIT : Int := 100
def TICK_SIZE_IN_CENTS : Int := 100
def MAX_ORDER_TICKS : Nat := 3
def ORDER_SPLITS : List ℚ := [Rat.mk' 3 10, Rat.mk' 1 5, Rat.mk' 1 5]
/-- `MAIN_ORDER_PERCENT = sum(ORDER_SPLITS) = 0.7`; written as a literal so the
kernel can evaluate it (`MAIN_ORDER_PERCENT_eq` below checks it equals the
sum, as in the source). -/
def MAIN_ORDER_PERCENT : ℚ := Rat.mk' 7 10
def MIN_ORDER_SPLITS : List ℚ := [Rat.mk' 1 2]
/-- `HEDGE_RATIO = 0.2` of the source (renamed: suffix restriction). -/
def HEDGE_RATIO_Q : ℚ := Rat.mk' 1 5
/-- `IDEAL_HEDGE_RATIO = 0.9` of the source (renamed: suffix restriction). -/
def IDEAL_HEDGE_RATIO_Q : ℚ := Rat.mk' 9 10
def THRESHOLD_SECONDS_HEDGE : Int := 45
def VOLATILITY_WINDOW : Nat := 100
def EMA_WINDOW : Nat := 50
def VOLATILITY : ℚ := Rat.mk' 1 20

theorem MAIN_ORDER_PERCENT_eq : MAIN_ORDER_PERCENT = ORDER_SPLITS.sum := by
  simp [MAIN_ORDER_PERCENT, ORDER_SPLITS, Rat.mk'_eq_divInt, Rat.divInt_eq_div]
  norm_num

/-- Modelled from the spec: `MINIMUM_BID` is imported from the repository's
`ready_trader_go` package, which is not under `src/`; its standard value is 1
(the smallest valid bid price on the exchange). -/
def MINIMUM_BID : Int := 1

/-- Modelled from the spec: `MAXIMUM_ASK` is imported from the repository's
`ready_trader_go` package, which is not under `src/`; its standard value is
2^31 - 1 (the largest valid ask price on the exchange). -/
def MAXIMUM_ASK : Int := 2147483647

def MIN_BID_NEAREST_TICK : Int :=
  (MINIMUM_BID + TICK_SIZE_IN_CENTS) / TICK_SIZE_IN_CENTS * TICK_SIZE_IN_CENTS

def MAX_ASK_NEAREST_TICK : Int :=
  MAXIMUM_ASK / TICK_SIZE_IN_CENTS * TICK_SIZE_IN_CENTS

/- ### Basic types -/

/-- Order side.  The source uses `Side.BID`/`Side.BUY` and `Side.ASK`/`Side.SELL`
as synonymous pairs; the embedding unifies each pair. -/
inductive Side where
  | bid
  | ask
deriving DecidableEq, Repr

inductive Instr where
  | future
  | etf
deriving DecidableEq, Repr

inductive Lifespan where
  | goodForDay
  | fillAndKill
deriving DecidableEq, Repr

/-- Outbound commands (`send_insert_order`, `send_cancel_order`,
`send_hedge_order`). -/
inductive Command where
  | insertOrder (id : Nat) (side : Side) (price : Int) (volume : Int) (lifespan : Lifespan)
  | cancelOrder (id : Nat)
  | hedgeOrder (id : Nat) (side : Side) (price : Int) (volume : Int)
deriving DecidableEq, Repr

/-- One element of `self.bid_orders` / `self.ask_orders`: the source stores
`[price, id, volume]` lists. -/
structure LadderEntry where
  price : Int
  order_id : Nat
  rem : Int
deriving DecidableEq, Repr

structure OrderBook where
  ask_prices : List Int
  ask_volumes : List Int
  bid_prices : List Int
  bid_volumes : List Int
deriving DecidableEq, Repr

/-- The autotrader's mutable state (the instance fields set in `__init__`). -/
structure TraderState where
  next_order_id : Nat
  bids : List Nat
  asks : List Nat
  position : Int
  start_time : Int
  etf_LOB : OrderBook
  future_LOB : OrderBook
  previous_order_book_sequence_number : Nat
  bid_orders : List LadderEntry
  ask_orders : List LadderEntry
  volatility : ℚ
  traded_bids : List Int
  traded_asks : List Int
  hedge_volume : Int
  old_position : Int
  last_hedge_filled : Int

/-- `set.add` / `set.discard` semantics over the `List Nat` representation of
the source's Python sets of order ids. -/
def setAdd (id : Nat) (l : List Nat) : List Nat := if id ∈ l then l else id :: l

def setDiscard (id : Nat) (l : List Nat) : List Nat := l.erase id

/-- `int(np.floor(a * r))` for an integer `a` and an exact rational `r`:
`floor(a * num/den) = fdiv (a * num) den`.  Written with integer floor
division so the kernel can evaluate it; `floorMulRat_eq` below shows it equals
`Int.floor ((a : ℚ) * r)`. -/
def floorMulRat (a : Int) (r : ℚ) : Int := Int.fdiv (a * r.num) (r.den : Int)

def initState : TraderState :=
  { next_order_id := 1
    bids := []
    asks := []
    position := 0
    start_time := 0
    etf_LOB := ⟨[], [], [], []⟩
    future_LOB := ⟨[], [], [], []⟩
    previous_order_book_sequence_number := 0
    bid_orders := []
    ask_orders := []
    volatility := VOLATILITY
    traded_bids := []
    traded_asks := []
    hedge_volume := 0
    old_position := 0
    last_hedge_filled := 0 }

/- ### Ladder helpers -/

def sumRem (l : List LadderEntry) : Int := (l.map LadderEntry.rem).sum

/-- `get_real_position` (lines 327-338). -/
def get_real_position (s : TraderState) : Side → Int
  | Side.ask => s.position - sumRem s.ask_orders
  | Side.bid => s.position + sumRem s.bid_orders

/-- The head pops of `pop_helper` (lines 317-319): pop the front `n` times,
sending a cancel for each popped entry's order id (the source sends the cancel
even for unassigned entries with id 0).  The source would raise `IndexError`
on an empty list; all call sites pop at most the list's length. -/
def popFront : Nat → List LadderEntry → List LadderEntry × List Command
  | 0, l => (l, [])
  | _ + 1, [] => ([], [])
  | n + 1, e :: l =>
    let r := popFront n l
    (r.1, Command.cancelOrder e.order_id :: r.2)

/-- The tail pops of `pop_helper` (lines 321-323): pop the back `n` times. -/
def popBack : Nat → List LadderEntry → List LadderEntry × List Command
  | 0, l => (l, [])
  | n + 1, l =>
    match l.getLast? with
    | none => ([], [])
    | some e =>
      let r := popBack n l.dropLast
      (r.1, Command.cancelOrder e.order_id :: r.2)

/-- `pop_helper` (lines 316-325). -/
def popHelper (l : List LadderEntry) (h t : Nat) : List LadderEntry × List Command :=
  let r1 := popFront h l
  let r2 := popBack t r1.1
  (r2.1, r1.2 ++ r2.2)

/-- Decrement the remaining volume of the first entry whose order id matches
(the fill loop of lines 219-222 / 227-230). -/
def decFirst (id : Nat) (v : Int) : List LadderEntry → List LadderEntry
  | [] => []
  | e :: l =>
    if e.order_id = id then { e with rem := e.rem - v } :: l
    else e :: decFirst id v l

/-- Delete the first entry whose order id matches (the deletion loop of lines
255-258 / 261-264). -/
def delFirst (id : Nat) : List LadderEntry → List LadderEntry
  | [] => []
  | e :: l => if e.order_id = id then l else e :: delFirst id l

def mkEntry (p : Int) : LadderEntry := ⟨p, 0, 0⟩

/-- `bid_price_list = range(new_bid_price, new_bid_price_low, -TICK)`
(line 168): exactly `MAX_ORDER_TICKS` descending prices; the lower bound
`new_bid_price_low` itself is excluded. -/
def bid_price_list (new_bid_price : Int) : List Int :=
  (List.range MAX_ORDER_TICKS).map (fun i => new_bid_price - i * TICK_SIZE_IN_CENTS)

/-- `ask_price_list = range(new_ask_price, new_ask_price_high, TICK)` (line 192). -/
def ask_price_list (new_ask_price : Int) : List Int :=
  (List.range MAX_ORDER_TICKS).map (fun i => new_ask_price + i * TICK_SIZE_IN_CENTS)

def headPrice (l : List LadderEntry) : Int := ((l.head?).map LadderEntry.price).getD 0

def lastPrice (l : List LadderEntry) : Int := ((l.getLast?).map LadderEntry.price).getD 0

/-- The bid insertion loop of lines 173-180.  The stack collects prices above
the current head; it is flushed to the front (in push order) only when a price
below the current tail is reached, which is also appended.  A stack that is
never flushed is discarded, exactly as in the source. -/
def bidInsertLoop : List Int → List Int → List LadderEntry → List LadderEntry
  | [], _, L => L
  | p :: ps, stack, L =>
    let stack1 := if headPrice L < p then stack ++ [p] else stack
    if p < lastPrice L then
      bidInsertLoop ps [] (stack1.map mkEntry ++ L ++ [mkEntry p])
    else
      bidInsertLoop ps stack1 L

/-- The ask insertion loop of lines 197-204 (mirror image). -/
def askInsertLoop : List Int → List Int → List LadderEntry → List LadderEntry
  | [], _, L => L
  | p :: ps, stack, L =>
    let stack1 := if p < headPrice L then stack ++ [p] else stack
    if lastPrice L < p then
      askInsertLoop ps [] (stack1.map mkEntry ++ L ++ [mkEntry p])
    else
      askInsertLoop ps stack1 L

/-- Bid-side reconciliation (lines 156-180): count and pop the entries priced
above `new_bid_price` (head) or below `new_bid_price_low` (tail), then fill
an empty ladder with the whole price list, or run the insertion loop. -/
def reconcileBids (L : List LadderEntry) (new_bid_price : Int) :
    List LadderEntry × List Command :=
  let low := new_bid_price - (MAX_ORDER_TICKS : Int) * TICK_SIZE_IN_CENTS
  let heads := (L.filter (fun e => new_bid_price < e.price)).length
  let tails := (L.filter (fun e => e.price < low)).length
  let r := popHelper L heads tails
  if r.1 = [] then ((bid_price_list new_bid_price).map mkEntry, r.2)
  else (bidInsertLoop (bid_price_list new_bid_price) [] r.1, r.2)

/-- Ask-side reconciliation (lines 182-204).  Also returns whether any ask
entry was popped: the source's `orders_cancelled` flag is set to `True` only
here (the bid branch at lines 163-164 assigns `False`, which is a no-op since
the flag starts `False`). -/
def reconcileAsks (L : List LadderEntry) (new_ask_price : Int) :
    List LadderEntry × List Command × Bool :=
  let high := new_ask_price + (MAX_ORDER_TICKS : Int) * TICK_SIZE_IN_CENTS
  let heads := (L.filter (fun e => e.price < new_ask_price)).length
  let tails := (L.filter (fun e => high < e.price)).length
  let r := popHelper L heads tails
  let cancelled : Bool := decide (0 < tails) || decide (0 < heads)
  if r.1 = [] then ((ask_price_list new_ask_price).map mkEntry, r.2, cancelled)
  else (askInsertLoop (ask_price_list new_ask_price) [] r.1, r.2, cancelled)

/- ### Order placement (`place_orders`, lines 340-378) -/

/-- One side's placement loop.  `done` is the already-traversed prefix of the
ladder (the source mutates entries in place; `get_real_position` therefore
sees updated prefix entries together with the untraversed suffix).  `avail`
is the `available_lot` computed once before the loop; `i` indexes the split
schedule.  Returns the updated ladder, next order id, updated id set and the
emitted insert commands. -/
def placeLoop (side : Side) (pos avail : Int) (split : List ℚ) (oc small : Bool) :
    List LadderEntry → List LadderEntry → Nat → Nat → List Nat → List Command →
    List LadderEntry × Nat × List Nat × List Command
  | [], done, _, nid, ids, cs => (done, nid, ids, cs)
  | e :: rest, done, i, nid, ids, cs =>
    if (oc ∧ small) ∨ avail = 0 then (done ++ e :: rest, nid, ids, cs)
    else
      let rp : Int :=
        match side with
        | Side.bid => pos + (sumRem done + e.rem + sumRem rest)
        | Side.ask => pos - (sumRem done + e.rem + sumRem rest)
      let guardB : Bool :=
        match side with
        | Side.bid => decide (e.order_id = 0 ∧ rp < POSITION_LIMIT)
        | Side.ask => decide (e.order_id = 0 ∧ -POSITION_LIMIT < rp)
      if guardB then
        let vol : Int := floorMulRat avail (split.getD i 0)
        let e' : LadderEntry := ⟨e.price, nid, vol⟩
        let cs' := cs ++ [Command.insertOrder nid side e.price vol Lifespan.goodForDay]
        if i + 1 ≥ split.length then (done ++ e' :: rest, nid + 1, setAdd nid ids, cs')
        else placeLoop side pos avail split oc small rest (done ++ [e']) (i + 1)
          (nid + 1) (setAdd nid ids) cs'
      else
        if i ≥ split.length then (done ++ e :: rest, nid, ids, cs)
        else placeLoop side pos avail split oc small rest (done ++ [e]) i nid ids cs

/-- `place_orders` (lines 340-378). -/
def place_orders (s : TraderState) (oc : Bool) : TraderState × List Command :=
  let availB := POSITION_LIMIT - get_real_position s Side.bid
  let smallB : Bool := decide (floorMulRat availB MAIN_ORDER_PERCENT ≤ LOT_SIZE)
  let splitB := if smallB then MIN_ORDER_SPLITS else ORDER_SPLITS
  let rb := placeLoop Side.bid s.position availB splitB oc smallB
    s.bid_orders [] 0 s.next_order_id s.bids []
  let s1 := { s with bid_orders := rb.1, next_order_id := rb.2.1, bids := rb.2.2.1 }
  let availA := POSITION_LIMIT + get_real_position s1 Side.ask
  let smallA : Bool := decide (floorMulRat availA MAIN_ORDER_PERCENT ≤ LOT_SIZE)
  let splitA := if smallA then MIN_ORDER_SPLITS else ORDER_SPLITS
  let ra := placeLoop Side.ask s1.position availA splitA oc smallA
    s1.ask_orders [] 0 s1.next_order_id s1.asks []
  ({ s1 with ask_orders := ra.1, next_order_id := ra.2.1, asks := ra.2.2.1 },
    rb.2.2.2 ++ ra.2.2.2)

/- ### Position-breach correction (`check_and_fix_position_breach`, lines 380-396) -/

/-- The cancellation loop of the breach fix: for each entry with a live order
id, subtract its remaining volume from `lots_to_cancel` and send a cancel;
break as soon as `lots_to_cancel` goes negative (the break test runs every
iteration, also for unassigned entries). -/
def breachCancelLoop : Int → List LadderEntry → List Command
  | _, [] => []
  | ltc, e :: rest =>
    if e.order_id ≠ 0 then
      Command.cancelOrder e.order_id ::
        (if ltc - e.rem < 0 then [] else breachCancelLoop (ltc - e.rem) rest)
    else
      (if ltc < 0 then [] else breachCancelLoop ltc rest)

/-- `check_and_fix_position_breach`.  Commands only; no state change.  The ask
branch computes `lots_to_cancel` from `get_real_position(Side.BID)` as in the
source (the spec flags this as a likely copy-paste defect; embedded as-is). -/
def check_and_fix_position_breach (s : TraderState) : List Command :=
  (if POSITION_LIMIT < get_real_position s Side.bid then
    breachCancelLoop (get_real_position s Side.bid - POSITION_LIMIT) s.bid_orders
  else []) ++
  (if get_real_position s Side.ask < -POSITION_LIMIT then
    breachCancelLoop (-POSITION_LIMIT - get_real_position s Side.bid) s.ask_orders
  else [])

/- ### Hedger (`hedge`, lines 398-412) -/

/-- The effective hedge ratio of lines 399-406: when both trade histories hold
at least `EMA_WINDOW` samples, the ratio escalates to 1 if the position is
long and the current mid lies below gmean + tolerance (oracle `escLow`), or if
the position is short and the current mid lies above gmean - tolerance (oracle
`escHigh`); the gmean and mid comparisons are floating point, so their boolean
outcomes are oracle parameters. -/
def effectiveHedgeFraction (s : TraderState) (defaultFraction : ℚ)
    (escLow escHigh : Bool) : ℚ :=
  if EMA_WINDOW ≤ s.traded_bids.length ∧ EMA_WINDOW ≤ s.traded_asks.length then
    if (0 < s.position ∧ escLow) ∨ (s.position < 0 ∧ escHigh) then 1
    else defaultFraction
  else defaultFraction

/-- `hedge` (lines 398-412): `position_to_hedge = floor(-position * ratio)
- hedge_volume`; negative sends an ask-side hedge at `MIN_BID_NEAREST_TICK`,
positive a bid-side hedge at `MAX_ASK_NEAREST_TICK`; `hedge_volume` is updated
by `position_to_hedge` unconditionally. -/
def hedge (s : TraderState) (defaultFraction : ℚ) (escLow escHigh : Bool) :
    TraderState × List Command :=
  let ratio := effectiveHedgeFraction s defaultFraction escLow escHigh
  let pth : Int := floorMulRat (-s.position) ratio - s.hedge_volume
  if pth < 0 then
    ({ s with hedge_volume := s.hedge_volume + pth, next_order_id := s.next_order_id + 1 },
      [Command.hedgeOrder s.next_order_id Side.ask MIN_BID_NEAREST_TICK (-pth)])
  else if 0 < pth then
    ({ s with hedge_volume := s.hedge_volume + pth, next_order_id := s.next_order_id + 1 },
      [Command.hedgeOrder s.next_order_id Side.bid MAX_ASK_NEAREST_TICK pth])
  else
    ({ s with hedge_volume := s.hedge_volume + pth }, [])

/- ### Book snapshot update (`update_order_book`, lines 303-314) -/

def update_order_book (s : TraderState) (instrument : Instr)
    (askP askV bidP bidV : List Int) : TraderState :=
  match instrument with
  | Instr.etf => { s with etf_LOB := ⟨askP, askV, bidP, bidV⟩ }
  | Instr.future => { s with future_LOB := ⟨askP, askV, bidP, bidV⟩ }

/- ### The repricing step (the `while True` block, lines 127-208) -/

/-- The repricing step of `on_order_book_update_message`: abort on an empty
best level, on an ETF event, or on a crossed computed quote; otherwise
reconcile both ladders against the computed targets and place orders.  The
Avellaneda-Stoikov computation of lines 137-146 is floating point; its integer
result `(new_bid_price, new_ask_price)` is the oracle parameter `targets`. -/
def repriceStep (s : TraderState) (instrument : Instr) (bidP askP : List Int)
    (targets : Int × Int) : TraderState × List Command :=
  if bidP.headD 0 = 0 ∨ askP.headD 0 = 0 then (s, [])
  else if instrument = Instr.etf then (s, [])
  else if targets.2 ≤ targets.1 then (s, [])
  else
    let rb := reconcileBids s.bid_orders targets.1
    let ra := reconcileAsks s.ask_orders targets.2
    let s1 := { s with bid_orders := rb.1, ask_orders := ra.1 }
    let rp := place_orders s1 ra.2.2
    (rp.1, rb.2 ++ ra.2.1 ++ rp.2)

/- ### Event handlers -/

/-- `on_order_book_update_message` (lines 107-208).  `now` is the oracle value
of `event_loop.time()`; `targets` the oracle result of the float price model;
`escLow`/`escHigh` the oracle outcomes of the hedger's float comparisons. -/
def on_order_book_update (s : TraderState) (instrument : Instr)
    (sequence_number : Nat) (askP askV bidP bidV : List Int) (now : Int)
    (targets : Int × Int) (escLow escHigh : Bool) : TraderState × List Command :=
  if sequence_number < s.previous_order_book_sequence_number then (s, [])
  else
    let s0 := { s with previous_order_book_sequence_number := sequence_number }
    let r1 :=
      if THRESHOLD_SECONDS_HEDGE < now - s0.last_hedge_filled then
        hedge { s0 with last_hedge_filled := now } IDEAL_HEDGE_RATIO_Q escLow escHigh
      else (s0, [])
    let s2 := update_order_book r1.1 instrument askP askV bidP bidV
    let r2 := repriceStep s2 instrument bidP askP targets
    (r2.1, r1.2 ++ r2.2)

/-- `on_order_filled_message` (lines 210-239). -/
def on_order_filled (s : TraderState) (client_order_id : Nat) (volume : Int)
    (now : Int) (escLow escHigh : Bool) : TraderState × List Command :=
  let s1 :=
    if client_order_id ∈ s.bids then
      { s with bid_orders := decFirst client_order_id volume s.bid_orders,
               position := s.position + volume }
    else if client_order_id ∈ s.asks then
      { s with ask_orders := decFirst client_order_id volume s.ask_orders,
               position := s.position - volume }
    else s
  let s2 :=
    if (0 < s1.old_position ∧ s1.position < 0) ∨ (s1.old_position < 0 ∧ 0 < s1.position) then
      { s1 with last_hedge_filled := now }
    else s1
  let s3 := { s2 with old_position := s2.position }
  let r := hedge s3 HEDGE_RATIO_Q escLow escHigh
  (r.1, r.2 ++ check_and_fix_position_breach r.1)

/-- `on_order_status_message` (lines 241-265). -/
def on_order_status (s : TraderState) (client_order_id : Nat)
    (remaining_volume : Int) : TraderState × List Command :=
  if remaining_volume = 0 then
    let s1 :=
      if client_order_id ∈ s.bids then
        { s with bids := setDiscard client_order_id s.bids,
                 bid_orders := delFirst client_order_id s.bid_orders }
      else if client_order_id ∈ s.asks then
        { s with asks := setDiscard client_order_id s.asks,
                 ask_orders := delFirst client_order_id s.ask_orders }
      else s
    place_orders s1 false
  else (s, [])

/-- `on_error_message` (lines 88-96). -/
def on_error (s : TraderState) (client_order_id : Nat) : TraderState × List Command :=
  if client_order_id ≠ 0 ∧ (client_order_id ∈ s.bids ∨ client_order_id ∈ s.asks) then
    on_order_status s client_order_id 0
  else (s, [])

/-- `on_hedge_filled_message` (lines 98-105): the body is `pass`. -/
def on_hedge_filled (s : TraderState) (_client_order_id : Nat) (_price _volume : Int) :
    TraderState × List Command :=
  (s, [])

/-- The append loop of `on_trade_ticks_message` (lines 281-287). -/
def appendTicks : List (Int × Int) → List Int → List Int → List Int × List Int
  | [], tb, ta => (tb, ta)
  | (b, a) :: rest, tb, ta =>
    if b = 0 ∧ a = 0 then (tb, ta)
    else appendTicks rest (if b ≠ 0 then tb ++ [b] else tb) (if a ≠ 0 then ta ++ [a] else ta)

/-- `on_trade_ticks_message` (lines 267-300).  The volatility recomputation of
lines 296-300 is floating point; its result is the oracle `newVol`.  The
handler sends no commands. -/
def on_trade_ticks (s : TraderState) (instrument : Instr)
    (askP bidP : List Int) (newVol : ℚ) : TraderState :=
  if instrument = Instr.future then s
  else
    let r := appendTicks (bidP.zip askP) s.traded_bids s.traded_asks
    let s1 := { s with traded_bids := r.1, traded_asks := r.2 }
    if min r.1.length r.2.length ≤ 5 then s1
    else
      let max_size := min (min r.1.length r.2.length) VOLATILITY_WINDOW
      if max_size = VOLATILITY_WINDOW then
        { s1 with traded_bids := r.1.drop (r.1.length - max_size),
                  traded_asks := r.2.drop (r.2.length - max_size),
                  volatility := newVol }
      else { s1 with volatility := newVol }

/- ### Event stream semantics -/

/-- One inbound event together with the oracle values of the floating-point
and wall-clock quantities the corresponding handler consumes. -/
inductive Event where
  | bookUpdate (instrument : Instr) (seq : Nat) (askP askV bidP bidV : List Int)
      (now : Int) (targets : Int × Int) (escLow escHigh : Bool)
  | orderFilled (id : Nat) (price volume : Int) (now : Int) (escLow escHigh : Bool)
  | orderStatus (id : Nat) (fill_volume remaining_volume fees : Int)
  | hedgeFilled (id : Nat) (price volume : Int)
  | tradeTicks (instrument : Instr) (seq : Nat) (askP askV bidP bidV : List Int) (newVol : ℚ)
  | errorMsg (id : Nat)

/-- Dispatch one event to its handler. -/
def step (s : TraderState) : Event → TraderState × List Command
  | Event.bookUpdate i sq ap av bp bv now t eL eH =>
      on_order_book_update s i sq ap av bp bv now t eL eH
  | Event.orderFilled id _ v now eL eH => on_order_filled s id v now eL eH
  | Event.orderStatus id _ r _ => on_order_status s id r
  | Event.hedgeFilled id p v => on_hedge_filled s id p v
  | Event.tradeTicks i _ ap _ bp _ vol => (on_trade_ticks s i ap bp vol, [])
  | Event.errorMsg id => on_error s id

/-- Run a finite event trace from the initial state. -/
def run (evs : List Event) : TraderState :=
  evs.foldl (fun s e => (step s e).1) initState

/-- A state is reachable if some finite event trace produces it. -/
inductive Reachable : TraderState → Prop
  | init : Reachable initState
  | step (s : TraderState) (e : Event) : Reachable s → Reachable (step s e).1

/- ### Bridge and frame lemmas -/

theorem floorMulRat_eq (a : Int) (r : ℚ) : floorMulRat a r = ⌊(a : ℚ) * r⌋ := by
  have h : (a : ℚ) * r = ((a * r.num : ℤ) : ℚ) / ((r.den : ℕ) : ℚ) := by
    push_cast
    rw [mul_div_assoc, Rat.num_div_den r]
  rw [floorMulRat, h, Rat.floor_intCast_div_natCast, Int.fdiv_eq_ediv _ (by positivity)]

theorem reachable_foldl (evs : List Event) (s : TraderState) (h : Reachable s) :
    Reachable (evs.foldl (fun s e => (step s e).1) s) := by
  induction evs generalizing s with
  | nil => exact h
  | cons e evs ih => exact ih _ (Reachable.step s e h)

theorem reachable_run (evs : List Event) : Reachable (run evs) :=
  reachable_foldl evs initState Reachable.init

/-- `hedge` only changes `hedge_volume` and `next_order_id`. -/
theorem hedge_shape (s : TraderState) (dr : ℚ) (eL eH : Bool) :
    ∃ hv nid, (hedge s dr eL eH).1 =
      { s with hedge_volume := hv, next_order_id := nid } := by
  simp only [hedge]
  split
  · exact ⟨_, _, rfl⟩
  · split
    · exact ⟨_, _, rfl⟩
    · exact ⟨_, _, rfl⟩

/-- `place_orders` only changes the ladders, the id sets and `next_order_id`. -/
theorem place_orders_shape (s : TraderState) (oc : Bool) :
    ∃ bl al nid bs as, (place_orders s oc).1 =
      { s with bid_orders := bl, ask_orders := al, next_order_id := nid,
               bids := bs, asks := as } := by
  exact ⟨_, _, _, _, _, rfl⟩

/-- `repriceStep` only changes the ladders, the id sets and `next_order_id`. -/
theorem repriceStep_shape (s : TraderState) (instrument : Instr)
    (bidP askP : List Int) (targets : Int × Int) :
    ∃ bl al nid bs as, (repriceStep s instrument bidP askP targets).1 =
      { s with bid_orders := bl, ask_orders := al, next_order_id := nid,
               bids := bs, asks := as } := by
  simp only [repriceStep]
  split
  · exact ⟨_, _, _, _, _, rfl⟩
  · split
    · exact ⟨_, _, _, _, _, rfl⟩
    · split
      · exact ⟨_, _, _, _, _, rfl⟩
      · obtain ⟨bl, al, nid, bs, as, hsh⟩ := place_orders_shape
          { s with bid_orders := (reconcileBids s.bid_orders targets.1).1,
                   ask_orders := (reconcileAsks s.ask_orders targets.2).1 }
          (reconcileAsks s.ask_orders targets.2).2.2
        exact ⟨bl, al, nid, bs, as, by simp [hsh]⟩

/- ### C10 -/

/-- C10: `on_hedge_filled_message` leaves the entire strategy state unchanged
and emits no command, for every input; all hedge accounting happens at send
time (inside `hedge`). -/
theorem on_hedge_filled_noop (s : TraderState) (id : Nat) (p v : Int) :
    on_hedge_filled s id p v = (s, []) := rfl

/- ### C2 -/

/-- C2: if the computed target bid is at least the computed target ask, the
repricing step aborts: the state (both ladders, the id sets, position,
hedge_volume — everything) is returned unchanged and no command is emitted. -/
theorem crossed_quote_aborts (s : TraderState) (instrument : Instr)
    (bidP askP : List Int) (targets : Int × Int)
    (h : targets.2 ≤ targets.1) :
    repriceStep s instrument bidP askP targets = (s, []) := by
  simp [repriceStep, h]

theorem crossed_quote_aborts_witness :
    repriceStep initState Instr.future [9950] [10050] (5000, 4900) = (initState, []) :=
  crossed_quote_aborts initState Instr.future [9950] [10050] (5000, 4900) (by decide)

theorem update_order_book_shape (s : TraderState) (instrument : Instr)
    (askP askV bidP bidV : List Int) :
    ∃ e f, update_order_book s instrument askP askV bidP bidV =
      { s with etf_LOB := e, future_LOB := f } := by
  cases instrument
  · exact ⟨s.etf_LOB, _, rfl⟩
  · exact ⟨_, s.future_LOB, rfl⟩

theorem hedge_prev (s : TraderState) (dr : ℚ) (eL eH : Bool) :
    (hedge s dr eL eH).1.previous_order_book_sequence_number =
      s.previous_order_book_sequence_number := by
  obtain ⟨hv, nid, h⟩ := hedge_shape s dr eL eH
  rw [h]

theorem update_order_book_prev (s : TraderState) (instrument : Instr)
    (askP askV bidP bidV : List Int) :
    (update_order_book s instrument askP askV bidP bidV).previous_order_book_sequence_number =
      s.previous_order_book_sequence_number := by
  obtain ⟨e, f, h⟩ := update_order_book_shape s instrument askP askV bidP bidV
  rw [h]

theorem repriceStep_prev (s : TraderState) (instrument : Instr)
    (bidP askP : List Int) (targets : Int × Int) :
    (repriceStep s instrument bidP askP targets).1.previous_order_book_sequence_number =
      s.previous_order_book_sequence_number := by
  obtain ⟨bl, al, nid, bs, as, h⟩ := repriceStep_shape s instrument bidP askP targets
  rw [h]

/- ### C3 -/

/-- C3: a book-update event whose sequence number is strictly below the last
accepted one is discarded whole — the handler returns the state unchanged (no
field changes) and sends no command; an event whose sequence number is equal
to or greater than the last accepted one is accepted and the watermark
(`previous_order_book_sequence_number`) advances to that sequence number. -/
theorem sequence_guard (s : TraderState) (instrument : Instr)
    (sequence_number : Nat) (askP askV bidP bidV : List Int) (now : Int)
    (targets : Int × Int) (eL eH : Bool) :
    (sequence_number < s.previous_order_book_sequence_number →
      on_order_book_update s instrument sequence_number askP askV bidP bidV
        now targets eL eH = (s, [])) ∧
    (s.previous_order_book_sequence_number ≤ sequence_number →
      (on_order_book_update s instrument sequence_number askP askV bidP bidV
        now targets eL eH).1.previous_order_book_sequence_number = sequence_number) := by
  constructor
  · intro h
    simp [on_order_book_update, h]
  · intro h
    simp only [on_order_book_update, if_neg (not_lt.mpr h)]
    rw [repriceStep_prev, update_order_book_prev]
    split
    · rw [hedge_prev]
    · rfl

theorem sequence_guard_witness :
    (on_order_book_update (run [Event.bookUpdate Instr.future 5 [10050] [10] [9950] [10] 1
        (0, 0) false false]) Instr.future 3 [10060] [10] [9960] [10] 2 (0, 0) false false
      = (run [Event.bookUpdate Instr.future 5 [10050] [10] [9950] [10] 1 (0, 0) false false], []))
    ∧ (on_order_book_update initState Instr.future 7 [10050] [10] [9950] [10] 1
        (0, 0) false false).1.previous_order_book_sequence_number = 7 := by
  constructor
  · exact (sequence_guard _ Instr.future 3 [10060] [10] [9960] [10] 2 (0, 0) false false).1
      (by decide)
  · exact (sequence_guard initState Instr.future 7 [10050] [10] [9950] [10] 1
      (0, 0) false false).2 (by decide)

/- ### C9 -/

/-- Modelled from the spec: the arbitrage threshold in ticks (spec §4.4/§8,
`threshold=3`).  The arbitrage detector/executor belongs to the repository's
richer trader variant, which is not under `src/` (spec §2: the source file
under `src/` is one variant of the design); only its trigger condition is
modelled here, from the spec's words. -/
def ARB_THRESHOLD_TICKS : Int := 3

/-- Modelled from the spec: buy-side arbitrage trigger — an opportunity to buy
the ETF aggressively exists when `future_ask - etf_bid > threshold_ticks *
tick` (strict inequality). -/
def arbBuyTrigger (future_ask etf_bid : Int) : Bool :=
  decide (ARB_THRESHOLD_TICKS * TICK_SIZE_IN_CENTS < future_ask - etf_bid)

/-- Modelled from the spec: sell-side arbitrage trigger — an opportunity to
sell the ETF aggressively exists when `etf_ask - future_bid > threshold_ticks
* tick` (strict inequality). -/
def arbSellTrigger (etf_ask future_bid : Int) : Bool :=
  decide (ARB_THRESHOLD_TICKS * TICK_SIZE_IN_CENTS < etf_ask - future_bid)

/-- C9: with tick = 100 and threshold = 3 ticks, the buy-side trigger fires
exactly when `future_ask - etf_bid` strictly exceeds 300 (symmetrically for
the sell side); in particular a difference of 400 (future_ask = 10000,
etf_bid = 9600) triggers and a difference of exactly 300 (etf_bid = 9700)
does not. -/
theorem arbitrage_trigger_boundary :
    (∀ future_ask etf_bid : Int,
      arbBuyTrigger future_ask etf_bid = true ↔ 300 < future_ask - etf_bid) ∧
    (∀ etf_ask future_bid : Int,
      arbSellTrigger etf_ask future_bid = true ↔ 300 < etf_ask - future_bid) ∧
    arbBuyTrigger 10000 9600 = true ∧ arbBuyTrigger 10000 9700 = false := by
  refine ⟨fun fa eb => ?_, fun ea fb => ?_, by decide, by decide⟩ <;>
    simp [arbBuyTrigger, arbSellTrigger, ARB_THRESHOLD_TICKS, TICK_SIZE_IN_CENTS]

/- ### C7 -/

/-- C7: a call to the hedger with effective ratio `r` computes
`position_to_hedge = floor(-position * r) - hedge_volume`; if it is negative
the hedger sends exactly one ask-side hedge order for `-position_to_hedge`
lots at the minimum valid bid price, if positive exactly one bid-side hedge
order for `position_to_hedge` lots at the maximum valid ask price, and if
zero no order; in every case `hedge_volume` is incremented by
`position_to_hedge`, so that afterwards `hedge_volume = floor(-position * r)`. -/
theorem hedge_accounting (s : TraderState) (dr : ℚ) (eL eH : Bool) (pth : Int)
    (hpth : pth = ⌊(-s.position : ℚ) * effectiveHedgeFraction s dr eL eH⌋ - s.hedge_volume) :
    (hedge s dr eL eH).1.hedge_volume = s.hedge_volume + pth ∧
    (hedge s dr eL eH).1.hedge_volume =
      ⌊(-s.position : ℚ) * effectiveHedgeFraction s dr eL eH⌋ ∧
    (pth < 0 → (hedge s dr eL eH).2 =
      [Command.hedgeOrder s.next_order_id Side.ask MIN_BID_NEAREST_TICK (-pth)]) ∧
    (0 < pth → (hedge s dr eL eH).2 =
      [Command.hedgeOrder s.next_order_id Side.bid MAX_ASK_NEAREST_TICK pth]) ∧
    (pth = 0 → (hedge s dr eL eH).2 = []) := by
  have hp : floorMulRat (-s.position) (effectiveHedgeFraction s dr eL eH) - s.hedge_volume
      = pth := by
    rw [hpth, floorMulRat_eq]
    norm_num
  have hfirst : (hedge s dr eL eH).1.hedge_volume = s.hedge_volume + pth := by
    simp only [hedge, hp]
    split
    · rfl
    split
    · rfl
    · rfl
  refine ⟨hfirst, by rw [hfirst, hpth]; omega, ?_, ?_, ?_⟩
  · intro hneg
    simp only [hedge, hp, if_pos hneg]
  · intro hpos
    simp only [hedge, hp]
    rw [if_neg (by omega), if_pos hpos]
  · intro h0
    simp only [hedge, hp]
    rw [if_neg (by omega), if_neg (by omega)]

/-- Concrete hedger input of the spec's convergence test: position = 100,
hedge_volume = 0, trade histories too short for full-hedge escalation. -/
def hedgeTestState : TraderState := { initState with position := 100 }

theorem hedge_accounting_witness :
    (hedge hedgeTestState HEDGE_RATIO_Q false false).1.hedge_volume = -20 ∧
    (hedge hedgeTestState HEDGE_RATIO_Q false false).2 =
      [Command.hedgeOrder 1 Side.ask MIN_BID_NEAREST_TICK 20] := by
  have h := hedge_accounting hedgeTestState HEDGE_RATIO_Q false false (-20)
    (by norm_num [effectiveHedgeFraction, hedgeTestState, initState, EMA_WINDOW,
      HEDGE_RATIO_Q, Rat.mk'_eq_divInt, Rat.divInt_eq_div])
  refine ⟨?_, ?_⟩
  · rw [h.1]
    rfl
  · have h2 := h.2.2.1 (by norm_num)
    rw [h2]
    rfl

theorem hedge_position (s : TraderState) (dr : ℚ) (eL eH : Bool) :
    (hedge s dr eL eH).1.position = s.position := by
  obtain ⟨hv, nid, h⟩ := hedge_shape s dr eL eH
  rw [h]

theorem hedge_bid_orders (s : TraderState) (dr : ℚ) (eL eH : Bool) :
    (hedge s dr eL eH).1.bid_orders = s.bid_orders := by
  obtain ⟨hv, nid, h⟩ := hedge_shape s dr eL eH
  rw [h]

theorem hedge_ask_orders (s : TraderState) (dr : ℚ) (eL eH : Bool) :
    (hedge s dr eL eH).1.ask_orders = s.ask_orders := by
  obtain ⟨hv, nid, h⟩ := hedge_shape s dr eL eH
  rw [h]

theorem on_order_filled_position (s : TraderState) (id : Nat) (v : Int)
    (now : Int) (eL eH : Bool) :
    (on_order_filled s id v now eL eH).1.position =
      if id ∈ s.bids then s.position + v
      else if id ∈ s.asks then s.position - v else s.position := by
  simp only [on_order_filled]
  rw [hedge_position]
  by_cases hb : id ∈ s.bids
  · simp only [if_pos hb]
    split <;> rfl
  · simp only [if_neg hb]
    by_cases ha : id ∈ s.asks
    · simp only [if_pos ha]
      split <;> rfl
    · simp only [if_neg ha]
      split <;> rfl

theorem on_order_filled_bid_orders (s : TraderState) (id : Nat) (v : Int)
    (now : Int) (eL eH : Bool) :
    (on_order_filled s id v now eL eH).1.bid_orders =
      if id ∈ s.bids then decFirst id v s.bid_orders else s.bid_orders := by
  simp only [on_order_filled]
  rw [hedge_bid_orders]
  by_cases hb : id ∈ s.bids
  · simp only [if_pos hb]
    split <;> rfl
  · simp only [if_neg hb]
    by_cases ha : id ∈ s.asks
    · simp only [if_pos ha]
      split <;> rfl
    · simp only [if_neg ha]
      split <;> rfl

theorem on_order_filled_ask_orders (s : TraderState) (id : Nat) (v : Int)
    (now : Int) (eL eH : Bool) :
    (on_order_filled s id v now eL eH).1.ask_orders =
      if id ∈ s.bids then s.ask_orders
      else if id ∈ s.asks then decFirst id v s.ask_orders else s.ask_orders := by
  simp only [on_order_filled]
  rw [hedge_ask_orders]
  by_cases hb : id ∈ s.bids
  · simp only [if_pos hb]
    split <;> rfl
  · simp only [if_neg hb]
    by_cases ha : id ∈ s.asks
    · simp only [if_pos ha]
      split <;> rfl
    · simp only [if_neg ha]
      split <;> rfl

theorem decFirst_append (id : Nat) (v : Int) (pre suf : List LadderEntry)
    (e : LadderEntry) (he : e.order_id = id) (hpre : ∀ x ∈ pre, x.order_id ≠ id) :
    decFirst id v (pre ++ e :: suf) = pre ++ { e with rem := e.rem - v } :: suf := by
  induction pre with
  | nil => simp [decFirst, he]
  | cons a pre ih =>
    have ha : a.order_id ≠ id := hpre a (by simp)
    simp only [List.cons_append, decFirst, if_neg ha]
    exact congrArg _ (ih (fun x hx => hpre x (by simp [hx])))

/- ### C6 -/

/-- C6: a fill of volume v on an id tracked in `bids` increases `position` by
exactly v and decreases the remaining volume of the (unique) bid ladder entry
carrying that id by exactly v, leaving every other entry of both ladders
unchanged; symmetrically, a fill on an id tracked in `asks` decreases
`position` by v and decrements only that ask entry. -/
theorem fill_accounting (s : TraderState) (id : Nat) (v : Int) (now : Int)
    (eL eH : Bool) (pre suf : List LadderEntry) (e : LadderEntry) :
    (id ∈ s.bids → s.bid_orders = pre ++ e :: suf → e.order_id = id →
      (∀ x ∈ pre, x.order_id ≠ id) →
      (on_order_filled s id v now eL eH).1.position = s.position + v ∧
      (on_order_filled s id v now eL eH).1.bid_orders
        = pre ++ { e with rem := e.rem - v } :: suf ∧
      (on_order_filled s id v now eL eH).1.ask_orders = s.ask_orders) ∧
    (id ∉ s.bids → id ∈ s.asks → s.ask_orders = pre ++ e :: suf → e.order_id = id →
      (∀ x ∈ pre, x.order_id ≠ id) →
      (on_order_filled s id v now eL eH).1.position = s.position - v ∧
      (on_order_filled s id v now eL eH).1.ask_orders
        = pre ++ { e with rem := e.rem - v } :: suf ∧
      (on_order_filled s id v now eL eH).1.bid_orders = s.bid_orders) := by
  constructor
  · intro hb hlad he hpre
    refine ⟨?_, ?_, ?_⟩
    · rw [on_order_filled_position, if_pos hb]
    · rw [on_order_filled_bid_orders, if_pos hb, hlad, decFirst_append id v pre suf e he hpre]
    · rw [on_order_filled_ask_orders, if_pos hb]
  · intro hb ha hlad he hpre
    refine ⟨?_, ?_, ?_⟩
    · rw [on_order_filled_position, if_neg hb, if_pos ha]
    · rw [on_order_filled_ask_orders, if_neg hb, if_pos ha, hlad,
        decFirst_append id v pre suf e he hpre]
    · rw [on_order_filled_bid_orders, if_neg hb]

/-- Concrete fill inputs: one tracked bid order (id 1) and one tracked ask
order (id 2), each with 10 lots resting. -/
def fillTestState : TraderState :=
  { initState with
    bids := [1]
    asks := [2]
    bid_orders := [⟨9900, 1, 10⟩]
    ask_orders := [⟨10100, 2, 10⟩] }

theorem fill_accounting_witness :
    ((on_order_filled fillTestState 1 4 0 false false).1.position = 4 ∧
      (on_order_filled fillTestState 1 4 0 false false).1.bid_orders = [⟨9900, 1, 6⟩]) ∧
    ((on_order_filled fillTestState 2 4 0 false false).1.position = -4 ∧
      (on_order_filled fillTestState 2 4 0 false false).1.ask_orders = [⟨10100, 2, 6⟩]) := by
  have h1 := (fill_accounting fillTestState 1 4 0 false false [] [] ⟨9900, 1, 10⟩).1
    (by decide) (by decide) rfl (by simp)
  have h2 := (fill_accounting fillTestState 2 4 0 false false [] [] ⟨10100, 2, 10⟩).2
    (by decide) (by decide) (by decide) rfl (by simp)
  exact ⟨⟨by rw [h1.1]; rfl, by rw [h1.2.1]; rfl⟩, ⟨by rw [h2.1]; rfl, by rw [h2.2.1]; rfl⟩⟩

/- ### C1 -/

theorem sumRem_append (l1 l2 : List LadderEntry) :
    sumRem (l1 ++ l2) = sumRem l1 + sumRem l2 := by
  simp [sumRem]

theorem sumRem_cons (e : LadderEntry) (l : List LadderEntry) :
    sumRem (e :: l) = e.rem + sumRem l := by
  simp [sumRem]

/-- The lots one placement loop can still allocate from split index 0. -/
def floorBudget (a : Int) (split : List ℚ) : Int :=
  (split.map (fun q => floorMulRat a q)).sum

theorem floorMulRat_nonneg (a : Int) (ha : 0 ≤ a) (q : ℚ) (hq : 0 ≤ q) :
    0 ≤ floorMulRat a q :=
  Int.fdiv_nonneg (mul_nonneg ha (Rat.num_nonneg.mpr hq)) (by positivity)

theorem floorMulRat_zero (a : Int) : floorMulRat a 0 = 0 := by
  simp [floorMulRat]

theorem floorBudget_nonneg (a : Int) (ha : 0 ≤ a) (split : List ℚ)
    (hq : ∀ q ∈ split, 0 ≤ q) : 0 ≤ floorBudget a split := by
  induction split with
  | nil => simp [floorBudget]
  | cons q l ih =>
    have h1 : 0 ≤ floorMulRat a q := floorMulRat_nonneg a ha q (hq q (by simp))
    have h2 := ih (fun q hqm => hq q (by simp [hqm]))
    simp only [floorBudget, List.map_cons, List.sum_cons] at *
    omega

theorem sumRem_nil : sumRem [] = 0 := rfl

theorem floorBudget_drop (a : Int) (split : List ℚ) (i : Nat) (h : i < split.length) :
    floorBudget a (split.drop i) =
      floorMulRat a (split.getD i 0) + floorBudget a (split.drop (i + 1)) := by
  have h2 : split.drop i = split.getD i 0 :: split.drop (i + 1) := by
    rw [List.drop_eq_getElem_cons h, List.getD_eq_getElem _ _ h]
  rw [h2]
  simp [floorBudget]

/-- The placement loop can grow the side's total resting volume by at most the
remaining allocation budget (each assignment replaces a zero-order-id entry,
whose resting volume is nonnegative, by its allocated volume). -/
theorem placeLoop_sumRem_le (side : Side) (pos avail : Int) (split : List ℚ)
    (oc small : Bool) (ha : 0 ≤ avail) (hq : ∀ q ∈ split, 0 ≤ q) :
    ∀ rest done i nid ids cs,
      (∀ e ∈ rest, e.order_id = 0 → 0 ≤ e.rem) →
      sumRem (placeLoop side pos avail split oc small rest done i nid ids cs).1 ≤
        sumRem done + sumRem rest + floorBudget avail (split.drop i) := by
  intro rest
  induction rest with
  | nil =>
    intro done i nid ids cs hz
    have hb := floorBudget_nonneg avail ha (split.drop i)
      (fun q hqm => hq q (List.mem_of_mem_drop hqm))
    simp only [placeLoop, sumRem_nil]
    omega
  | cons e rest ih =>
    intro done i nid ids cs hz
    have hze : e.order_id = 0 → 0 ≤ e.rem := hz e (by simp)
    have hzr : ∀ x ∈ rest, x.order_id = 0 → 0 ≤ x.rem :=
      fun x hx => hz x (by simp [hx])
    have hbdrop : 0 ≤ floorBudget avail (split.drop i) :=
      floorBudget_nonneg avail ha _ (fun q hqm => hq q (List.mem_of_mem_drop hqm))
    have hbdrop1 : 0 ≤ floorBudget avail (split.drop (i + 1)) :=
      floorBudget_nonneg avail ha _ (fun q hqm => hq q (List.mem_of_mem_drop hqm))
    simp only [placeLoop]
    split
    · -- break at the top of the iteration
      simp only [sumRem_append, sumRem_cons]
      omega
    · split
      · -- guard true: the entry is assigned
        rename_i hguard
        have h0 : e.order_id = 0 := by
          cases side <;> simp at hguard <;> exact hguard.1
        have hrem := hze h0
        split
        · -- split schedule exhausted after this assignment
          by_cases hi : i < split.length
          · rw [floorBudget_drop avail split i hi]
            simp only [sumRem_append, sumRem_cons]
            omega
          · have hd : split.drop i = [] := List.drop_eq_nil_of_le (le_of_not_lt hi)
            have hg0 : split.getD i 0 = 0 := List.getD_eq_default _ _ (le_of_not_lt hi)
            rw [hd, hg0]
            simp only [sumRem_append, sumRem_cons, floorMulRat_zero, floorBudget,
              List.map_nil, List.sum_nil]
            omega
        · -- recurse after the assignment
          rename_i hlen
          have hi : i < split.length := by omega
          have hrec := ih (done ++ [⟨e.price, nid, floorMulRat avail (split.getD i 0)⟩])
            (i + 1) (nid + 1) (setAdd nid ids)
            (cs ++ [Command.insertOrder nid side e.price
              (floorMulRat avail (split.getD i 0)) Lifespan.goodForDay]) hzr
          rw [floorBudget_drop avail split i hi]
          simp only [sumRem_append, sumRem_cons, sumRem_nil] at hrec ⊢
          omega
      · -- guard false: the entry is skipped
        split
        · simp only [sumRem_append, sumRem_cons]
          omega
        · have hrec := ih (done ++ [e]) i nid ids cs hzr
          simp only [sumRem_append, sumRem_cons, sumRem_nil] at hrec ⊢
          omega

theorem floorBudget_main_le (a : Int) (ha : 0 ≤ a) : floorBudget a ORDER_SPLITS ≤ a := by
  have e1 : floorMulRat a (Rat.mk' 3 10) = a * 3 / 10 := Int.fdiv_eq_ediv _ (by norm_num)
  have e2 : floorMulRat a (Rat.mk' 1 5) = a * 1 / 5 := Int.fdiv_eq_ediv _ (by norm_num)
  simp only [floorBudget, ORDER_SPLITS, List.map_cons, List.map_nil,
    List.sum_cons, List.sum_nil, e1, e2]
  omega

theorem floorBudget_min_le (a : Int) (ha : 0 ≤ a) : floorBudget a MIN_ORDER_SPLITS ≤ a := by
  have e1 : floorMulRat a (Rat.mk' 1 2) = a * 1 / 2 := Int.fdiv_eq_ediv _ (by norm_num)
  simp only [floorBudget, MIN_ORDER_SPLITS, List.map_cons, List.map_nil,
    List.sum_cons, List.sum_nil, e1]
  omega

theorem ORDER_SPLITS_nonneg : ∀ q ∈ ORDER_SPLITS, 0 ≤ q := by
  intro q hqm
  simp [ORDER_SPLITS] at hqm
  rcases hqm with rfl | rfl | rfl <;> decide

theorem MIN_ORDER_SPLITS_nonneg : ∀ q ∈ MIN_ORDER_SPLITS, 0 ≤ q := by
  intro q hqm
  simp [MIN_ORDER_SPLITS] at hqm
  subst hqm
  decide

/-- C1 (amended): the order placement policy itself respects the limits — if
on entry the bid-side real position is at most `POSITION_LIMIT` and the
ask-side real position at least `-POSITION_LIMIT` (and unassigned ladder
entries carry nonnegative resting volume, as they always do), then the same
bounds hold after `place_orders` returns.  The original claim fails at
handler exit (see the counterexample): a fill on an order whose ladder entry
was already removed by reconciliation raises the real position without any
ladder decrement, and `check_and_fix_position_breach` only sends cancels. -/
theorem place_orders_respects_limit (s : TraderState) (oc : Bool)
    (hb : get_real_position s Side.bid ≤ POSITION_LIMIT)
    (ha : -POSITION_LIMIT ≤ get_real_position s Side.ask)
    (hzb : ∀ e ∈ s.bid_orders, e.order_id = 0 → 0 ≤ e.rem)
    (hza : ∀ e ∈ s.ask_orders, e.order_id = 0 → 0 ≤ e.rem) :
    get_real_position (place_orders s oc).1 Side.bid ≤ POSITION_LIMIT ∧
    -POSITION_LIMIT ≤ get_real_position (place_orders s oc).1 Side.ask := by
  simp only [get_real_position] at hb ha ⊢
  simp only [place_orders, get_real_position]
  constructor
  · -- bid side
    have hav : (0:Int) ≤ POSITION_LIMIT - (s.position + sumRem s.bid_orders) := by omega
    by_cases hc : floorMulRat (POSITION_LIMIT - (s.position + sumRem s.bid_orders))
        MAIN_ORDER_PERCENT ≤ LOT_SIZE
    · simp only [hc, decide_True, if_true]
      have hloop := placeLoop_sumRem_le Side.bid s.position
        (POSITION_LIMIT - (s.position + sumRem s.bid_orders)) MIN_ORDER_SPLITS oc true
        hav MIN_ORDER_SPLITS_nonneg s.bid_orders [] 0 s.next_order_id s.bids [] hzb
      have hbud := floorBudget_min_le _ hav
      simp only [sumRem_nil, List.drop_zero] at hloop
      omega
    · simp only [hc, decide_False, Bool.false_eq_true, if_false]
      have hloop := placeLoop_sumRem_le Side.bid s.position
        (POSITION_LIMIT - (s.position + sumRem s.bid_orders)) ORDER_SPLITS oc false
        hav ORDER_SPLITS_nonneg s.bid_orders [] 0 s.next_order_id s.bids [] hzb
      have hbud := floorBudget_main_le _ hav
      simp only [sumRem_nil, List.drop_zero] at hloop
      omega
  · -- ask side
    have hav : (0:Int) ≤ POSITION_LIMIT + (s.position - sumRem s.ask_orders) := by omega
    by_cases hc : floorMulRat (POSITION_LIMIT + (s.position - sumRem s.ask_orders))
        MAIN_ORDER_PERCENT ≤ LOT_SIZE
    · simp only [hc, decide_True, if_true]
      have key : ∀ (nid : Nat) (ids : List Nat) (cs : List Command),
          -POSITION_LIMIT ≤ s.position - sumRem (placeLoop Side.ask s.position
            (POSITION_LIMIT + (s.position - sumRem s.ask_orders)) MIN_ORDER_SPLITS oc true
            s.ask_orders [] 0 nid ids cs).1 := by
        intro nid ids cs
        have hloop := placeLoop_sumRem_le Side.ask s.position
          (POSITION_LIMIT + (s.position - sumRem s.ask_orders)) MIN_ORDER_SPLITS oc true
          hav MIN_ORDER_SPLITS_nonneg s.ask_orders [] 0 nid ids cs hza
        have hbud := floorBudget_min_le _ hav
        simp only [sumRem_nil, List.drop_zero] at hloop
        omega
      exact key _ _ _
    · simp only [hc, decide_False, Bool.false_eq_true, if_false]
      have key : ∀ (nid : Nat) (ids : List Nat) (cs : List Command),
          -POSITION_LIMIT ≤ s.position - sumRem (placeLoop Side.ask s.position
            (POSITION_LIMIT + (s.position - sumRem s.ask_orders)) ORDER_SPLITS oc false
            s.ask_orders [] 0 nid ids cs).1 := by
        intro nid ids cs
        have hloop := placeLoop_sumRem_le Side.ask s.position
          (POSITION_LIMIT + (s.position - sumRem s.ask_orders)) ORDER_SPLITS oc false
          hav ORDER_SPLITS_nonneg s.ask_orders [] 0 nid ids cs hza
        have hbud := floorBudget_main_le _ hav
        simp only [sumRem_nil, List.drop_zero] at hloop
        omega
      exact key _ _ _

/-- A concrete event trace refuting the original C1 claim.  The price-model
oracle values are realisable: with position 0, volatility 0.05 and the books
shown, the Avellaneda-Stoikov computation of lines 140-146 yields a spread of
about 9.6 cents around the mid, so mid 10000 gives targets (9900, 10100) and
mid 9700 gives (9600, 9800).  The trace: quote both sides (orders 1-6), order
1 fills fully (position 30), the future moves down so reconciliation cancels
bid orders 1-3 and quotes fresh bids (orders 8-10, 49 lots), then fills for
orders 2 and 3 arrive — they raced the in-flight cancels, which the exchange
may legally fill first.  Each fill adds to `position` with no ladder entry
left to decrement. -/
def c1Trace : List Event :=
  [Event.bookUpdate Instr.future 1 [10050, 0, 0, 0, 0] [10, 0, 0, 0, 0]
      [9950, 0, 0, 0, 0] [10, 0, 0, 0, 0] 1 (9900, 10100) false false,
   Event.orderFilled 1 9900 30 2 false false,
   Event.bookUpdate Instr.future 2 [9750, 0, 0, 0, 0] [10, 0, 0, 0, 0]
      [9650, 0, 0, 0, 0] [10, 0, 0, 0, 0] 3 (9600, 9800) false false,
   Event.orderFilled 2 9800 20 4 false false,
   Event.orderFilled 3 9700 20 5 false false]

/-- C1 is false as stated: after the last `on_order_filled` handler of
`c1Trace` returns, the bid-side real position is 119 > POSITION_LIMIT = 100.
`check_and_fix_position_breach` ran at the end of that handler but only sends
cancel commands; the state keeps the breach until cancels are acknowledged. -/
theorem real_position_bound_counterexample :
    Reachable (run c1Trace) ∧
    get_real_position (run c1Trace) Side.bid = 119 ∧
    POSITION_LIMIT < get_real_position (run c1Trace) Side.bid :=
  ⟨reachable_run c1Trace, by decide, by decide⟩

theorem place_orders_respects_limit_witness :
    get_real_position (place_orders (run [c1Trace.headD (Event.errorMsg 0)]) false).1
        Side.bid ≤ POSITION_LIMIT ∧
    -POSITION_LIMIT ≤ get_real_position (place_orders
        (run [c1Trace.headD (Event.errorMsg 0)]) false).1 Side.ask :=
  place_orders_respects_limit (run [c1Trace.headD (Event.errorMsg 0)]) false
    (by decide) (by decide) (by decide) (by decide)

/- ### Pop characterisation and insertion-loop shape lemmas -/

theorem popFront_fst (n : Nat) (l : List LadderEntry) : (popFront n l).1 = l.drop n := by
  induction n generalizing l with
  | zero => rfl
  | succ n ih =>
    cases l with
    | nil => rfl
    | cons e l => simpa [popFront] using ih l

theorem popFront_snd (n : Nat) (l : List LadderEntry) :
    (popFront n l).2 = (l.take n).map (fun e => Command.cancelOrder e.order_id) := by
  induction n generalizing l with
  | zero => rfl
  | succ n ih =>
    cases l with
    | nil => rfl
    | cons e l => simp [popFront, ih l]

theorem popBack_fst (n : Nat) : ∀ (l : List LadderEntry), n ≤ l.length →
    (popBack n l).1 = l.take (l.length - n) := by
  induction n with
  | zero =>
    intro l h
    simp [popBack]
  | succ n ih =>
    intro l h
    induction l using List.reverseRecOn with
    | nil => simp at h
    | append_singleton l2 e _ =>
      simp only [popBack, List.getLast?_concat, List.dropLast_concat]
      have hlen : n ≤ l2.length := by
        simp at h
        omega
      rw [ih l2 hlen]
      have h1 : l2.length + 1 - (n + 1) = l2.length - n := by omega
      rw [List.length_append, List.length_singleton, h1,
        List.take_append_of_le_length (by omega)]

theorem popBack_snd (n : Nat) : ∀ (l : List LadderEntry), n ≤ l.length →
    (popBack n l).2 =
      ((l.drop (l.length - n)).reverse).map (fun e => Command.cancelOrder e.order_id) := by
  induction n with
  | zero =>
    intro l h
    simp [popBack]
  | succ n ih =>
    intro l h
    induction l using List.reverseRecOn with
    | nil => simp at h
    | append_singleton l2 e _ =>
      simp only [popBack, List.getLast?_concat, List.dropLast_concat]
      have hlen : n ≤ l2.length := by
        simp at h
        omega
      rw [ih l2 hlen]
      have h1 : l2.length + 1 - (n + 1) = l2.length - n := by omega
      rw [List.length_append, List.length_singleton, h1,
        List.drop_append_of_le_length (by omega)]
      simp

/-- On a `Pairwise R`-sorted list, a predicate closed towards the front
(`R a b` and `p b` give `p a`) selects a prefix: filtering equals take-while. -/
theorem filter_eq_takeWhile_of_sorted {α : Type} {R : α → α → Prop} {p : α → Bool}
    (hmono : ∀ a b, R a b → p b = true → p a = true) :
    ∀ l : List α, l.Pairwise R → l.filter p = l.takeWhile p := by
  intro l hs
  induction l with
  | nil => rfl
  | cons a l ih =>
    rcases List.pairwise_cons.mp hs with ⟨hab, hl⟩
    by_cases hp : p a = true
    · simp [List.filter_cons, List.takeWhile_cons, hp, ih hl]
    · have hnone : ∀ b ∈ l, ¬p b = true := fun b hb hpb => hp (hmono a b (hab b hb) hpb)
      rw [List.filter_cons_of_neg (by simpa using hp),
        List.takeWhile_cons_of_neg (by simpa using hp)]
      exact List.filter_eq_nil_iff.mpr hnone

/-- On a `Pairwise R`-sorted list, a predicate closed towards the back
(`R a b` and `p a` give `p b`) selects a suffix: filtering equals dropping
the non-satisfying prefix. -/
theorem filter_eq_dropWhile_of_sorted {α : Type} {R : α → α → Prop} {p : α → Bool}
    (hmono : ∀ a b, R a b → p a = true → p b = true) :
    ∀ l : List α, l.Pairwise R → l.filter p = l.dropWhile (fun x => !p x) := by
  intro l hs
  induction l with
  | nil => rfl
  | cons a l ih =>
    rcases List.pairwise_cons.mp hs with ⟨hab, hl⟩
    by_cases hp : p a = true
    · have hall : ∀ b ∈ l, p b = true := fun b hb => hmono a b (hab b hb) hp
      rw [List.filter_cons_of_pos hp, List.dropWhile_cons_of_neg (by simp [hp]),
        List.filter_eq_self.mpr hall]
    · rw [List.filter_cons_of_neg (by simpa using hp),
        List.dropWhile_cons_of_pos (by simp [Bool.not_eq_true] at hp ⊢; exact hp),
        ih hl]

theorem bidInsertLoop_shape (ps : List Int) :
    ∀ (stack : List Int) (L : List LadderEntry),
      ∃ (A B : List Int), bidInsertLoop ps stack L = A.map mkEntry ++ L ++ B.map mkEntry := by
  induction ps with
  | nil =>
    intro stack L
    exact ⟨[], [], by simp [bidInsertLoop]⟩
  | cons p ps ih =>
    intro stack L
    simp only [bidInsertLoop]
    split
    · obtain ⟨A, B, hAB⟩ := ih []
        ((if headPrice L < p then stack ++ [p] else stack).map mkEntry ++ L ++ [mkEntry p])
      refine ⟨A ++ (if headPrice L < p then stack ++ [p] else stack), p :: B, ?_⟩
      rw [hAB]
      simp
    · obtain ⟨A, B, hAB⟩ := ih (if headPrice L < p then stack ++ [p] else stack) L
      exact ⟨A, B, hAB⟩

theorem askInsertLoop_shape (ps : List Int) :
    ∀ (stack : List Int) (L : List LadderEntry),
      ∃ (A B : List Int), askInsertLoop ps stack L = A.map mkEntry ++ L ++ B.map mkEntry := by
  induction ps with
  | nil =>
    intro stack L
    exact ⟨[], [], by simp [askInsertLoop]⟩
  | cons p ps ih =>
    intro stack L
    simp only [askInsertLoop]
    split
    · obtain ⟨A, B, hAB⟩ := ih []
        ((if p < headPrice L then stack ++ [p] else stack).map mkEntry ++ L ++ [mkEntry p])
      refine ⟨A ++ (if p < headPrice L then stack ++ [p] else stack), p :: B, ?_⟩
      rw [hAB]
      simp
    · obtain ⟨A, B, hAB⟩ := ih (if p < headPrice L then stack ++ [p] else stack) L
      exact ⟨A, B, hAB⟩

/-- On a sorted-descending bid ladder, popping `count(price > nb)` entries at
the head and `count(price < nb - depth·tick)` at the tail keeps exactly the
entries inside the window `[nb - depth·tick, nb]` (unchanged and in order) and
emits a cancel for every removed entry. -/
theorem reconcile_pops_spec (L : List LadderEntry) (nb : Int)
    (hs : L.Pairwise (fun a b => b.price < a.price)) :
    (popHelper L ((L.filter (fun e => decide (nb < e.price))).length)
        ((L.filter (fun e =>
          decide (e.price < nb - (MAX_ORDER_TICKS : Int) * TICK_SIZE_IN_CENTS))).length)).1
      = L.filter (fun e => decide (e.price ≤ nb) &&
          decide (nb - (MAX_ORDER_TICKS : Int) * TICK_SIZE_IN_CENTS ≤ e.price)) ∧
    ∀ e ∈ L, (nb < e.price ∨ e.price < nb - (MAX_ORDER_TICKS : Int) * TICK_SIZE_IN_CENTS) →
      Command.cancelOrder e.order_id ∈
        (popHelper L ((L.filter (fun e => decide (nb < e.price))).length)
          ((L.filter (fun e =>
            decide (e.price < nb - (MAX_ORDER_TICKS : Int) * TICK_SIZE_IN_CENTS))).length)).2 := by
  have hlow : nb - (MAX_ORDER_TICKS : Int) * TICK_SIZE_IN_CENTS < nb := by
    norm_num [MAX_ORDER_TICKS, TICK_SIZE_IN_CENTS]
  set low := nb - (MAX_ORDER_TICKS : Int) * TICK_SIZE_IN_CENTS with hlowdef
  set pH : LadderEntry → Bool := fun e => decide (nb < e.price) with hpH
  set pL : LadderEntry → Bool := fun e => decide (e.price < low) with hpL
  have hfH : L.filter pH = L.takeWhile pH :=
    filter_eq_takeWhile_of_sorted
      (fun a b hr hb => by simp only [hpH, decide_eq_true_eq] at hb ⊢; omega) L hs
  have hLsplit : L.takeWhile pH ++ L.dropWhile pH = L := List.takeWhile_append_dropWhile pH L
  set hw := L.takeWhile pH with hhw
  set L1 := L.dropWhile pH with hL1
  have hs1 : L1.Pairwise (fun a b => b.price < a.price) :=
    hs.sublist (List.dropWhile_sublist _)
  have hdropw : L.drop ((L.filter pH).length) = L1 := by
    have h2 := List.drop_left hw L1
    rw [hLsplit] at h2
    rw [hfH, h2]
  have htakew : L.take ((L.filter pH).length) = hw := by
    have h2 := List.take_left hw L1
    rw [hLsplit] at h2
    rw [hfH, h2]
  -- the tail-pop count computed on L equals the count on L1
  have hwnone : hw.filter pL = [] := by
    refine List.filter_eq_nil_iff.mpr ?_
    intro x hx
    have hxH : pH x = true := List.mem_takeWhile_imp hx
    simp only [hpH, hpL, decide_eq_true_eq] at hxH ⊢
    omega
  have hcount : L.filter pL = L1.filter pL := by
    conv_lhs => rw [← hLsplit]
    rw [List.filter_append, hwnone, List.nil_append]
  have hfL : L1.filter pL = L1.dropWhile (fun x => !pL x) :=
    filter_eq_dropWhile_of_sorted
      (fun a b hr ha => by simp only [hpL, decide_eq_true_eq] at ha ⊢; omega) L1 hs1
  set M := L1.takeWhile (fun x => !pL x) with hM
  set S := L1.dropWhile (fun x => !pL x) with hS
  have hL1split : M ++ S = L1 := List.takeWhile_append_dropWhile (fun x => !pL x) L1
  have hlen1 : (L.filter pL).length = S.length := by rw [hcount, hfL]
  have hlenle : (L.filter pL).length ≤ L1.length := by
    rw [hlen1, ← hL1split]
    simp
  have hback : (popBack ((L.filter pL).length) L1).1 = M := by
    rw [popBack_fst _ _ hlenle, hlen1]
    have h2 := List.take_left M S
    rw [hL1split] at h2
    have h3 : L1.length - S.length = M.length := by
      rw [← hL1split]
      simp
    rw [h3, h2]
  -- the kept middle is the in-window filter of L
  have hMfilter : M = L.filter (fun e => decide (e.price ≤ nb) && decide (low ≤ e.price)) := by
    have hMtake : L1.filter (fun x => !pL x) = M :=
      filter_eq_takeWhile_of_sorted
        (fun a b hr hb => by
          simp only [hpL, Bool.not_eq_true', decide_eq_false_iff_not] at hb ⊢
          omega) L1 hs1
    have hL1filter : L.filter (fun x => !pH x) = L1 := by
      have h4 : L.filter (fun x => !pH x) = L.dropWhile (fun x => !(!pH x)) :=
        filter_eq_dropWhile_of_sorted
          (fun a b hr ha => by
            simp only [hpH, Bool.not_eq_true', decide_eq_false_iff_not] at ha ⊢
            omega) L hs
      have h5 : (fun x : LadderEntry => !(!pH x)) = pH := by
        funext x
        simp
      rw [h4, h5]
    rw [← hMtake, ← hL1filter, List.filter_filter]
    refine List.filter_congr ?_
    intro x hx
    simp only [hpH, hpL, ← decide_not, ← Bool.decide_and, decide_eq_decide]
    omega
  constructor
  · simp only [popHelper]
    rw [popFront_fst, hdropw, hback, hMfilter]
  · intro e heL hout
    simp only [popHelper, List.mem_append]
    rcases hout with hhigh | hlowp
    · left
      rw [popFront_snd, htakew]
      refine List.mem_map.mpr ⟨e, ?_, rfl⟩
      rw [← hfH]
      exact List.mem_filter.mpr ⟨heL, by simp [hpH, hhigh]⟩
    · right
      rw [popFront_fst, hdropw, popBack_snd _ _ hlenle, hlen1]
      have h3 : L1.length - S.length = M.length := by
        rw [← hL1split]
        simp
      have h2 := List.drop_left M S
      rw [hL1split] at h2
      rw [h3, h2]
      refine List.mem_map.mpr ⟨e, List.mem_reverse.mpr ?_, rfl⟩
      have heL1 : e ∈ L1 := by
        rcases (List.mem_append.mp (hLsplit ▸ heL : e ∈ hw ++ L1)) with hmem | hmem
        · exfalso
          have hxH : pH e = true := List.mem_takeWhile_imp hmem
          simp only [hpH, decide_eq_true_eq] at hxH
          omega
        · exact hmem
      rw [← hfL]
      exact List.mem_filter.mpr ⟨heL1, by simp [hpL, hlowp]⟩

theorem bid_price_list_eq (nb : Int) :
    bid_price_list nb = [nb, nb - TICK_SIZE_IN_CENTS, nb - 2 * TICK_SIZE_IN_CENTS] := by
  simp [bid_price_list, MAX_ORDER_TICKS, List.range_succ]

theorem ask_price_list_eq (na : Int) :
    ask_price_list na = [na, na + TICK_SIZE_IN_CENTS, na + 2 * TICK_SIZE_IN_CENTS] := by
  simp [ask_price_list, MAX_ORDER_TICKS, List.range_succ]

/-- Mirror of `reconcile_pops_spec` for the ask side: on a sorted-ascending
ask ladder, popping `count(price < na)` entries at the head and
`count(price > na + depth·tick)` at the tail keeps exactly the entries inside
the window `[na, na + depth·tick]` (unchanged and in order) and emits a cancel
for every removed entry. -/
theorem reconcile_pops_spec_ask (L : List LadderEntry) (na : Int)
    (hs : L.Pairwise (fun a b => a.price < b.price)) :
    (popHelper L ((L.filter (fun e => decide (e.price < na))).length)
        ((L.filter (fun e =>
          decide (na + (MAX_ORDER_TICKS : Int) * TICK_SIZE_IN_CENTS < e.price))).length)).1
      = L.filter (fun e => decide (na ≤ e.price) &&
          decide (e.price ≤ na + (MAX_ORDER_TICKS : Int) * TICK_SIZE_IN_CENTS)) ∧
    ∀ e ∈ L, (e.price < na ∨ na + (MAX_ORDER_TICKS : Int) * TICK_SIZE_IN_CENTS < e.price) →
      Command.cancelOrder e.order_id ∈
        (popHelper L ((L.filter (fun e => decide (e.price < na))).length)
          ((L.filter (fun e =>
            decide (na + (MAX_ORDER_TICKS : Int) * TICK_SIZE_IN_CENTS < e.price))).length)).2 := by
  have hhigh : na < na + (MAX_ORDER_TICKS : Int) * TICK_SIZE_IN_CENTS := by
    norm_num [MAX_ORDER_TICKS, TICK_SIZE_IN_CENTS]
  set high := na + (MAX_ORDER_TICKS : Int) * TICK_SIZE_IN_CENTS with hhighdef
  set pH : LadderEntry → Bool := fun e => decide (e.price < na) with hpH
  set pL : LadderEntry → Bool := fun e => decide (high < e.price) with hpL
  have hfH : L.filter pH = L.takeWhile pH :=
    filter_eq_takeWhile_of_sorted
      (fun a b hr hb => by simp only [hpH, decide_eq_true_eq] at hb ⊢; omega) L hs
  have hLsplit : L.takeWhile pH ++ L.dropWhile pH = L := List.takeWhile_append_dropWhile pH L
  set hw := L.takeWhile pH with hhw
  set L1 := L.dropWhile pH with hL1
  have hs1 : L1.Pairwise (fun a b => a.price < b.price) :=
    hs.sublist (List.dropWhile_sublist _)
  have hdropw : L.drop ((L.filter pH).length) = L1 := by
    have h2 := List.drop_left hw L1
    rw [hLsplit] at h2
    rw [hfH, h2]
  have htakew : L.take ((L.filter pH).length) = hw := by
    have h2 := List.take_left hw L1
    rw [hLsplit] at h2
    rw [hfH, h2]
  have hwnone : hw.filter pL = [] := by
    refine List.filter_eq_nil_iff.mpr ?_
    intro x hx
    have hxH : pH x = true := List.mem_takeWhile_imp hx
    simp only [hpH, hpL, decide_eq_true_eq] at hxH ⊢
    omega
  have hcount : L.filter pL = L1.filter pL := by
    conv_lhs => rw [← hLsplit]
    rw [List.filter_append, hwnone, List.nil_append]
  have hfL : L1.filter pL = L1.dropWhile (fun x => !pL x) :=
    filter_eq_dropWhile_of_sorted
      (fun a b hr ha => by simp only [hpL, decide_eq_true_eq] at ha ⊢; omega) L1 hs1
  set M := L1.takeWhile (fun x => !pL x) with hM
  set S := L1.dropWhile (fun x => !pL x) with hS
  have hL1split : M ++ S = L1 := List.takeWhile_append_dropWhile (fun x => !pL x) L1
  have hlen1 : (L.filter pL).length = S.length := by rw [hcount, hfL]
  have hlenle : (L.filter pL).length ≤ L1.length := by
    rw [hlen1, ← hL1split]
    simp
  have hback : (popBack ((L.filter pL).length) L1).1 = M := by
    rw [popBack_fst _ _ hlenle, hlen1]
    have h2 := List.take_left M S
    rw [hL1split] at h2
    have h3 : L1.length - S.length = M.length := by
      rw [← hL1split]
      simp
    rw [h3, h2]
  have hMfilter : M = L.filter (fun e => decide (na ≤ e.price) && decide (e.price ≤ high)) := by
    have hMtake : L1.filter (fun x => !pL x) = M :=
      filter_eq_takeWhile_of_sorted
        (fun a b hr hb => by
          simp only [hpL, Bool.not_eq_true', decide_eq_false_iff_not] at hb ⊢
          omega) L1 hs1
    have hL1filter : L.filter (fun x => !pH x) = L1 := by
      have h4 : L.filter (fun x => !pH x) = L.dropWhile (fun x => !(!pH x)) :=
        filter_eq_dropWhile_of_sorted
          (fun a b hr ha => by
            simp only [hpH, Bool.not_eq_true', decide_eq_false_iff_not] at ha ⊢
            omega) L hs
      have h5 : (fun x : LadderEntry => !(!pH x)) = pH := by
        funext x
        simp
      rw [h4, h5]
    rw [← hMtake, ← hL1filter, List.filter_filter]
    refine List.filter_congr ?_
    intro x hx
    simp only [hpH, hpL, ← decide_not, ← Bool.decide_and, decide_eq_decide]
    omega
  constructor
  · simp only [popHelper]
    rw [popFront_fst, hdropw, hback, hMfilter]
  · intro e heL hout
    simp only [popHelper, List.mem_append]
    rcases hout with hfront | hrear
    · left
      rw [popFront_snd, htakew]
      refine List.mem_map.mpr ⟨e, ?_, rfl⟩
      rw [← hfH]
      exact List.mem_filter.mpr ⟨heL, by simp [hpH, hfront]⟩
    · right
      rw [popFront_fst, hdropw, popBack_snd _ _ hlenle, hlen1]
      have h3 : L1.length - S.length = M.length := by
        rw [← hL1split]
        simp
      have h2 := List.drop_left M S
      rw [hL1split] at h2
      rw [h3, h2]
      refine List.mem_map.mpr ⟨e, List.mem_reverse.mpr ?_, rfl⟩
      have heL1 : e ∈ L1 := by
        rcases (List.mem_append.mp (hLsplit ▸ heL : e ∈ hw ++ L1)) with hmem | hmem
        · exfalso
          have hxH : pH e = true := List.mem_takeWhile_imp hmem
          simp only [hpH, decide_eq_true_eq] at hxH
          omega
        · exact hmem
      rw [← hfL]
      exact List.mem_filter.mpr ⟨heL1, by simp [hpL, hrear]⟩

/- ### C4 -/

/-- C4 is false as stated, on both ladders.  First: an empty ladder is not
filled with the whole claimed window: with bid target 10000 and depth 3 the
claimed bid window contains 9700 = 10000 - 3·100 (and the claimed ask window
at ask target 10000 contains 10300), yet reconciliation of an empty ladder
produces only the three prices 10000, 9900, 9800 (asks: 10000, 10100, 10200)
— the Python `range` excludes its stop value.  Second: a missing price
strictly inside the window is not inserted when it falls between the ladder's
head and tail: reconciling bids `[10000, 9800]` (9900 missing) at target
10000, or symmetrically asks `[10000, 10200]` (10100 missing) at target
10000, leaves the ladder unchanged. -/
theorem reconciliation_window_counterexample :
    (9700 = 10000 - (MAX_ORDER_TICKS : Int) * TICK_SIZE_IN_CENTS) ∧
    (∀ e ∈ (reconcileBids [] 10000).1, e.price ≠ 9700) ∧
    (reconcileBids [⟨10000, 1, 5⟩, ⟨9800, 2, 5⟩] 10000).1
      = [⟨10000, 1, 5⟩, ⟨9800, 2, 5⟩] ∧
    (reconcileBids [⟨10000, 1, 5⟩, ⟨9800, 2, 5⟩] 10000).2 = [] ∧
    (10300 = 10000 + (MAX_ORDER_TICKS : Int) * TICK_SIZE_IN_CENTS) ∧
    (∀ e ∈ (reconcileAsks [] 10000).1, e.price ≠ 10300) ∧
    (reconcileAsks [⟨10000, 1, 5⟩, ⟨10200, 2, 5⟩] 10000).1
      = [⟨10000, 1, 5⟩, ⟨10200, 2, 5⟩] ∧
    (reconcileAsks [⟨10000, 1, 5⟩, ⟨10200, 2, 5⟩] 10000).2.1 = [] := by
  refine ⟨by decide, by decide, by decide, by decide, by decide, by decide, by decide, by decide⟩

/-- C4 (amended), both ladders.  For a sorted bid ladder at target `nb`,
reconciliation (i) preserves — with order id and remaining volume unchanged,
in their original order — exactly the pre-existing entries whose price lies in
the window `[nb - depth·tick, nb]`, adding only fresh unassigned entries
before and after them; (ii) emits a cancel for every removed (out-of-window)
entry; and (iii) fills an empty ladder with exactly the `depth` prices `nb,
nb - tick, nb - 2·tick`.  Symmetrically for a sorted ask ladder at target
`na` with the window `[na, na + depth·tick]` and prices `na, na + tick,
na + 2·tick`.  In both directions the window's far bound (`nb - depth·tick`
resp. `na + depth·tick`) is itself never created, and missing prices strictly
between the surviving head and tail are not re-inserted (see the
counterexample). -/
theorem reconciliation_window (L M : List LadderEntry) (nb na : Int)
    (hsb : L.Pairwise (fun a b => b.price < a.price))
    (hsa : M.Pairwise (fun a b => a.price < b.price)) :
    (∃ (A B : List Int), (reconcileBids L nb).1 =
        A.map mkEntry ++
        L.filter (fun e => decide (e.price ≤ nb) &&
          decide (nb - (MAX_ORDER_TICKS : Int) * TICK_SIZE_IN_CENTS ≤ e.price)) ++
        B.map mkEntry) ∧
    (∀ e ∈ L, (nb < e.price ∨ e.price < nb - (MAX_ORDER_TICKS : Int) * TICK_SIZE_IN_CENTS) →
      Command.cancelOrder e.order_id ∈ (reconcileBids L nb).2) ∧
    (L = [] → (reconcileBids L nb).1 =
      [mkEntry nb, mkEntry (nb - TICK_SIZE_IN_CENTS),
        mkEntry (nb - 2 * TICK_SIZE_IN_CENTS)]) ∧
    (∃ (A B : List Int), (reconcileAsks M na).1 =
        A.map mkEntry ++
        M.filter (fun e => decide (na ≤ e.price) &&
          decide (e.price ≤ na + (MAX_ORDER_TICKS : Int) * TICK_SIZE_IN_CENTS)) ++
        B.map mkEntry) ∧
    (∀ e ∈ M, (e.price < na ∨ na + (MAX_ORDER_TICKS : Int) * TICK_SIZE_IN_CENTS < e.price) →
      Command.cancelOrder e.order_id ∈ (reconcileAsks M na).2.1) ∧
    (M = [] → (reconcileAsks M na).1 =
      [mkEntry na, mkEntry (na + TICK_SIZE_IN_CENTS),
        mkEntry (na + 2 * TICK_SIZE_IN_CENTS)]) := by
  obtain ⟨hkept, hcancel⟩ := reconcile_pops_spec L nb hsb
  obtain ⟨hkepta, hcancela⟩ := reconcile_pops_spec_ask M na hsa
  refine ⟨?_, ?_, ?_, ?_, ?_, ?_⟩
  · simp only [reconcileBids]
    split
    · rename_i hnil
      rw [hnil] at hkept
      refine ⟨bid_price_list nb, [], ?_⟩
      rw [← hkept]
      simp
    · rename_i hnil
      obtain ⟨A, B, hAB⟩ := bidInsertLoop_shape (bid_price_list nb) []
        (popHelper L ((L.filter (fun e => decide (nb < e.price))).length)
          ((L.filter (fun e => decide (e.price <
            nb - (MAX_ORDER_TICKS : Int) * TICK_SIZE_IN_CENTS))).length)).1
      refine ⟨A, B, ?_⟩
      rw [hAB, hkept]
  · intro e heL hout
    have := hcancel e heL hout
    simp only [reconcileBids]
    split <;> exact this
  · intro hnil
    subst hnil
    simp only [reconcileBids]
    rw [bid_price_list_eq]
    rfl
  · simp only [reconcileAsks]
    split
    · rename_i hnil
      rw [hnil] at hkepta
      refine ⟨ask_price_list na, [], ?_⟩
      rw [← hkepta]
      simp
    · rename_i hnil
      obtain ⟨A, B, hAB⟩ := askInsertLoop_shape (ask_price_list na) []
        (popHelper M ((M.filter (fun e => decide (e.price < na))).length)
          ((M.filter (fun e => decide (na +
            (MAX_ORDER_TICKS : Int) * TICK_SIZE_IN_CENTS < e.price))).length)).1
      refine ⟨A, B, ?_⟩
      rw [hAB, hkepta]
  · intro e heM hout
    have := hcancela e heM hout
    simp only [reconcileAsks]
    split <;> exact this
  · intro hnil
    subst hnil
    simp only [reconcileAsks]
    rw [ask_price_list_eq]
    rfl

theorem reconciliation_window_witness :
    Command.cancelOrder 1 ∈ (reconcileBids [⟨9950, 1, 7⟩] 9900).2 ∧
    Command.cancelOrder 2 ∈ (reconcileAsks [⟨9850, 2, 7⟩] 9900).2.1 :=
  ⟨(reconciliation_window [⟨9950, 1, 7⟩] [⟨9850, 2, 7⟩] 9900 9900 (by simp) (by simp)).2.1
      ⟨9950, 1, 7⟩ (by simp) (Or.inl (by norm_num)),
   (reconciliation_window [⟨9950, 1, 7⟩] [⟨9850, 2, 7⟩] 9900 9900 (by simp) (by simp)).2.2.2.2.1
      ⟨9850, 2, 7⟩ (by simp) (Or.inl (by norm_num))⟩

/- ### Ladder sortedness: transfer lemmas -/

theorem decFirst_price_map (id : Nat) (v : Int) (l : List LadderEntry) :
    (decFirst id v l).map LadderEntry.price = l.map LadderEntry.price := by
  induction l with
  | nil => rfl
  | cons e l ih =>
    simp only [decFirst]
    split
    · simp
    · simp [ih]

theorem delFirst_sublist (id : Nat) (l : List LadderEntry) :
    (delFirst id l).Sublist l := by
  induction l with
  | nil => exact List.Sublist.refl _
  | cons e l ih =>
    simp only [delFirst]
    split
    · exact List.sublist_cons_self e l
    · exact ih.cons₂ e

theorem popBack_sublist (n : Nat) : ∀ l : List LadderEntry, (popBack n l).1.Sublist l := by
  induction n with
  | zero => exact fun l => List.Sublist.refl _
  | succ n ih =>
    intro l
    simp only [popBack]
    split
    · exact List.nil_sublist l
    · exact ((ih l.dropLast).trans (List.dropLast_sublist l))

theorem popHelper_sublist (l : List LadderEntry) (h t : Nat) :
    (popHelper l h t).1.Sublist l := by
  simp only [popHelper, popFront_fst]
  exact (popBack_sublist t (l.drop h)).trans (List.drop_sublist h l)

theorem placeLoop_price_map (side : Side) (pos avail : Int) (split : List ℚ)
    (oc small : Bool) :
    ∀ rest done i nid ids cs,
      (placeLoop side pos avail split oc small rest done i nid ids cs).1.map
          LadderEntry.price = (done ++ rest).map LadderEntry.price := by
  intro rest
  induction rest with
  | nil =>
    intro done i nid ids cs
    simp [placeLoop]
  | cons e rest ih =>
    intro done i nid ids cs
    simp only [placeLoop]
    split
    · rfl
    · split
      · split
        · simp
        · rw [ih]
          simp
      · split
        · rfl
        · rw [ih]
          simp

/-- Pairwise-by-price transfers along equal price maps. -/
theorem pairwise_price_of_map_eq (R : Int → Int → Prop) (l1 l2 : List LadderEntry)
    (hmap : l1.map LadderEntry.price = l2.map LadderEntry.price)
    (h : l2.Pairwise (fun a b => R a.price b.price)) :
    l1.Pairwise (fun a b => R a.price b.price) := by
  have h1 : (l2.map LadderEntry.price).Pairwise R := (List.pairwise_map).mpr h
  rw [← hmap] at h1
  exact (List.pairwise_map).mp h1

theorem headPrice_ge (L : List LadderEntry)
    (hs : L.Pairwise (fun a b => b.price < a.price)) :
    ∀ x ∈ L, x.price ≤ headPrice L := by
  cases L with
  | nil => intro x hx; simp at hx
  | cons a l =>
    intro x hx
    rcases List.mem_cons.mp hx with rfl | hx
    · simp [headPrice]
    · have := (List.pairwise_cons.mp hs).1 x hx
      simp only [headPrice, List.head?_cons, Option.map_some', Option.getD_some]
      omega

theorem lastPrice_le (L : List LadderEntry)
    (hs : L.Pairwise (fun a b => b.price < a.price)) :
    ∀ x ∈ L, lastPrice L ≤ x.price := by
  induction L with
  | nil => intro x hx; simp at hx
  | cons a l ih =>
    intro x hx
    cases l with
    | nil =>
      rcases List.mem_cons.mp hx with rfl | hx
      · simp [lastPrice]
      · simp at hx
    | cons b l2 =>
      have hlast : lastPrice (a :: b :: l2) = lastPrice (b :: l2) := by
        simp [lastPrice]
      rcases List.mem_cons.mp hx with rfl | hx
      · have hb : lastPrice (b :: l2) ≤ b.price :=
          ih (List.pairwise_cons.mp hs).2 b (by simp)
        have hab := (List.pairwise_cons.mp hs).1 b (by simp)
        omega
      · have := ih (List.pairwise_cons.mp hs).2 x hx
        omega

theorem headPrice_ge_asc (L : List LadderEntry)
    (hs : L.Pairwise (fun a b => a.price < b.price)) :
    ∀ x ∈ L, headPrice L ≤ x.price := by
  cases L with
  | nil => intro x hx; simp at hx
  | cons a l =>
    intro x hx
    rcases List.mem_cons.mp hx with rfl | hx
    · simp [headPrice]
    · have := (List.pairwise_cons.mp hs).1 x hx
      simp only [headPrice, List.head?_cons, Option.map_some', Option.getD_some]
      omega

theorem lastPrice_le_asc (L : List LadderEntry)
    (hs : L.Pairwise (fun a b => a.price < b.price)) :
    ∀ x ∈ L, x.price ≤ lastPrice L := by
  induction L with
  | nil => intro x hx; simp at hx
  | cons a l ih =>
    intro x hx
    cases l with
    | nil =>
      rcases List.mem_cons.mp hx with rfl | hx
      · simp [lastPrice]
      · simp at hx
    | cons b l2 =>
      have hlast : lastPrice (a :: b :: l2) = lastPrice (b :: l2) := by
        simp [lastPrice]
      rcases List.mem_cons.mp hx with rfl | hx
      · have hb : b.price ≤ lastPrice (b :: l2) :=
          ih (List.pairwise_cons.mp hs).2 b (by simp)
        have hab := (List.pairwise_cons.mp hs).1 b (by simp)
        omega
      · have := ih (List.pairwise_cons.mp hs).2 x hx
        omega

/-- The bid insertion loop keeps a nonempty sorted-descending ladder sorted:
the stack holds prices above the current head (in push order), and every
price still to be processed lies below every stacked price. -/
theorem bidInsertLoop_sorted :
    ∀ (ps stack : List Int) (L : List LadderEntry),
      L ≠ [] →
      L.Pairwise (fun a b => b.price < a.price) →
      stack.Pairwise (fun a b => b < a) →
      (∀ q ∈ stack, headPrice L < q) →
      ps.Pairwise (fun a b => b < a) →
      (∀ q ∈ stack, ∀ x ∈ ps, x < q) →
      (bidInsertLoop ps stack L).Pairwise (fun a b => b.price < a.price) := by
  intro ps
  induction ps with
  | nil =>
    intro stack L hne hL hstack hshead hps hcross
    simpa [bidInsertLoop] using hL
  | cons r ps ih =>
    intro stack L hne hL hstack hshead hps hcross
    rcases List.pairwise_cons.mp hps with ⟨hpps, hps2⟩
    obtain ⟨a, l, rfl⟩ := List.exists_cons_of_ne_nil hne
    have hhead : headPrice (a :: l) = a.price := by simp [headPrice]
    have hlh : lastPrice (a :: l) ≤ headPrice (a :: l) := by
      have := lastPrice_le _ hL a (by simp)
      omega
    simp only [bidInsertLoop]
    by_cases hflush : r < lastPrice (a :: l)
    · have hnopush : ¬headPrice (a :: l) < r := by omega
      rw [if_pos hflush, if_neg hnopush]
      refine ih [] _ (by simp) ?_ (by simp) (by simp) hps2 (by simp)
      rw [List.append_assoc]
      refine (List.pairwise_append).mpr ⟨?_, ?_, ?_⟩
      · exact (List.pairwise_map).mpr (hstack.imp (fun h => h))
      · refine (List.pairwise_append).mpr ⟨hL, List.pairwise_singleton _ _, ?_⟩
        intro x hx y hy
        rw [List.mem_singleton] at hy
        subst hy
        have := lastPrice_le _ hL x hx
        show (mkEntry r).price < x.price
        simp only [mkEntry]
        omega
      · intro x hx y hy
        obtain ⟨q, hq, rfl⟩ := List.mem_map.mp hx
        have hq2 := hshead q hq
        show y.price < (mkEntry q).price
        rcases List.mem_append.mp hy with hy | hy
        · have := headPrice_ge _ hL y hy
          simp only [mkEntry]
          omega
        · rw [List.mem_singleton] at hy
          subst hy
          simp only [mkEntry]
          omega
    · rw [if_neg hflush]
      by_cases hpush : headPrice (a :: l) < r
      · rw [if_pos hpush]
        refine ih (stack ++ [r]) _ hne hL ?_ ?_ hps2 ?_
        · refine (List.pairwise_append).mpr ⟨hstack, List.pairwise_singleton _ _, ?_⟩
          intro x hx y hy
          rw [List.mem_singleton] at hy
          rw [hy]
          exact hcross x hx r (List.mem_cons_self r ps)
        · intro q hq
          rcases List.mem_append.mp hq with hq | hq
          · exact hshead q hq
          · rw [List.mem_singleton] at hq
            subst hq
            exact hpush
        · intro q hq x hx
          rcases List.mem_append.mp hq with hq | hq
          · exact hcross q hq x (List.mem_cons_of_mem _ hx)
          · rw [List.mem_singleton] at hq
            subst hq
            exact hpps x hx
      · rw [if_neg hpush]
        exact ih stack _ hne hL hstack hshead hps2
          (fun q hq x hx => hcross q hq x (List.mem_cons_of_mem _ hx))

/-- Mirror image of `bidInsertLoop_sorted` for the ascending ask ladder. -/
theorem askInsertLoop_sorted :
    ∀ (ps stack : List Int) (L : List LadderEntry),
      L ≠ [] →
      L.Pairwise (fun a b => a.price < b.price) →
      stack.Pairwise (fun a b => a < b) →
      (∀ q ∈ stack, q < headPrice L) →
      ps.Pairwise (fun a b => a < b) →
      (∀ q ∈ stack, ∀ x ∈ ps, q < x) →
      (askInsertLoop ps stack L).Pairwise (fun a b => a.price < b.price) := by
  intro ps
  induction ps with
  | nil =>
    intro stack L hne hL hstack hshead hps hcross
    simpa [askInsertLoop] using hL
  | cons r ps ih =>
    intro stack L hne hL hstack hshead hps hcross
    rcases List.pairwise_cons.mp hps with ⟨hpps, hps2⟩
    obtain ⟨a, l, rfl⟩ := List.exists_cons_of_ne_nil hne
    have hhead : headPrice (a :: l) = a.price := by simp [headPrice]
    have hlh : headPrice (a :: l) ≤ lastPrice (a :: l) := by
      have := lastPrice_le_asc _ hL a (by simp)
      omega
    simp only [askInsertLoop]
    by_cases hflush : lastPrice (a :: l) < r
    · have hnopush : ¬r < headPrice (a :: l) := by omega
      rw [if_pos hflush, if_neg hnopush]
      refine ih [] _ (by simp) ?_ (by simp) (by simp) hps2 (by simp)
      rw [List.append_assoc]
      refine (List.pairwise_append).mpr ⟨?_, ?_, ?_⟩
      · exact (List.pairwise_map).mpr (hstack.imp (fun h => h))
      · refine (List.pairwise_append).mpr ⟨hL, List.pairwise_singleton _ _, ?_⟩
        intro x hx y hy
        rw [List.mem_singleton] at hy
        subst hy
        have := lastPrice_le_asc _ hL x hx
        show x.price < (mkEntry r).price
        simp only [mkEntry]
        omega
      · intro x hx y hy
        obtain ⟨q, hq, rfl⟩ := List.mem_map.mp hx
        have hq2 := hshead q hq
        show (mkEntry q).price < y.price
        rcases List.mem_append.mp hy with hy | hy
        · have := headPrice_ge_asc _ hL y hy
          simp only [mkEntry]
          omega
        · rw [List.mem_singleton] at hy
          subst hy
          simp only [mkEntry]
          omega
    · rw [if_neg hflush]
      by_cases hpush : r < headPrice (a :: l)
      · rw [if_pos hpush]
        refine ih (stack ++ [r]) _ hne hL ?_ ?_ hps2 ?_
        · refine (List.pairwise_append).mpr ⟨hstack, List.pairwise_singleton _ _, ?_⟩
          intro x hx y hy
          rw [List.mem_singleton] at hy
          rw [hy]
          exact hcross x hx r (List.mem_cons_self r ps)
        · intro q hq
          rcases List.mem_append.mp hq with hq | hq
          · exact hshead q hq
          · rw [List.mem_singleton] at hq
            subst hq
            exact hpush
        · intro q hq x hx
          rcases List.mem_append.mp hq with hq | hq
          · exact hcross q hq x (List.mem_cons_of_mem _ hx)
          · rw [List.mem_singleton] at hq
            subst hq
            exact hpps x hx
      · rw [if_neg hpush]
        exact ih stack _ hne hL hstack hshead hps2
          (fun q hq x hx => hcross q hq x (List.mem_cons_of_mem _ hx))

theorem bid_price_list_sorted (nb : Int) :
    (bid_price_list nb).Pairwise (fun a b => b < a) := by
  rw [bid_price_list_eq]
  simp [List.pairwise_cons, TICK_SIZE_IN_CENTS]

theorem ask_price_list_sorted (na : Int) :
    (ask_price_list na).Pairwise (fun a b => a < b) := by
  rw [ask_price_list_eq]
  simp [List.pairwise_cons, TICK_SIZE_IN_CENTS]

theorem reconcileBids_sorted (L : List LadderEntry) (nb : Int)
    (hs : L.Pairwise (fun a b => b.price < a.price)) :
    (reconcileBids L nb).1.Pairwise (fun a b => b.price < a.price) := by
  simp only [reconcileBids]
  split
  · exact (List.pairwise_map).mpr ((bid_price_list_sorted nb).imp (fun h => h))
  · rename_i hne
    exact bidInsertLoop_sorted (bid_price_list nb) [] _ hne
      (hs.sublist (popHelper_sublist _ _ _)) (by simp) (by simp)
      (bid_price_list_sorted nb) (by simp)

theorem reconcileAsks_sorted (L : List LadderEntry) (na : Int)
    (hs : L.Pairwise (fun a b => a.price < b.price)) :
    (reconcileAsks L na).1.Pairwise (fun a b => a.price < b.price) := by
  simp only [reconcileAsks]
  split
  · exact (List.pairwise_map).mpr ((ask_price_list_sorted na).imp (fun h => h))
  · rename_i hne
    exact askInsertLoop_sorted (ask_price_list na) [] _ hne
      (hs.sublist (popHelper_sublist _ _ _)) (by simp) (by simp)
      (ask_price_list_sorted na) (by simp)

theorem place_orders_sorted (s : TraderState) (oc : Bool)
    (hb : s.bid_orders.Pairwise (fun a b => b.price < a.price))
    (ha : s.ask_orders.Pairwise (fun a b => a.price < b.price)) :
    (place_orders s oc).1.bid_orders.Pairwise (fun a b => b.price < a.price) ∧
    (place_orders s oc).1.ask_orders.Pairwise (fun a b => a.price < b.price) := by
  simp only [place_orders]
  constructor
  · refine pairwise_price_of_map_eq (fun x y => y < x) _ s.bid_orders ?_ hb
    rw [placeLoop_price_map]
    simp
  · refine pairwise_price_of_map_eq (fun x y => x < y) _ s.ask_orders ?_ ha
    rw [placeLoop_price_map]
    simp

theorem update_order_book_bid_orders (s : TraderState) (instrument : Instr)
    (askP askV bidP bidV : List Int) :
    (update_order_book s instrument askP askV bidP bidV).bid_orders = s.bid_orders := by
  obtain ⟨e, f, h⟩ := update_order_book_shape s instrument askP askV bidP bidV
  rw [h]

theorem update_order_book_ask_orders (s : TraderState) (instrument : Instr)
    (askP askV bidP bidV : List Int) :
    (update_order_book s instrument askP askV bidP bidV).ask_orders = s.ask_orders := by
  obtain ⟨e, f, h⟩ := update_order_book_shape s instrument askP askV bidP bidV
  rw [h]

theorem repriceStep_sorted (s : TraderState) (instrument : Instr)
    (bidP askP : List Int) (targets : Int × Int)
    (hb : s.bid_orders.Pairwise (fun a b => b.price < a.price))
    (ha : s.ask_orders.Pairwise (fun a b => a.price < b.price)) :
    (repriceStep s instrument bidP askP targets).1.bid_orders.Pairwise
      (fun a b => b.price < a.price) ∧
    (repriceStep s instrument bidP askP targets).1.ask_orders.Pairwise
      (fun a b => a.price < b.price) := by
  simp only [repriceStep]
  split
  · exact ⟨hb, ha⟩
  · split
    · exact ⟨hb, ha⟩
    · split
      · exact ⟨hb, ha⟩
      · exact place_orders_sorted _ _
          (reconcileBids_sorted s.bid_orders targets.1 hb)
          (reconcileAsks_sorted s.ask_orders targets.2 ha)

theorem on_order_status_sorted (s : TraderState) (id : Nat) (r : Int)
    (hb : s.bid_orders.Pairwise (fun a b => b.price < a.price))
    (ha : s.ask_orders.Pairwise (fun a b => a.price < b.price)) :
    (on_order_status s id r).1.bid_orders.Pairwise (fun a b => b.price < a.price) ∧
    (on_order_status s id r).1.ask_orders.Pairwise (fun a b => a.price < b.price) := by
  simp only [on_order_status]
  split
  · apply place_orders_sorted
    · split
      · exact hb.sublist (delFirst_sublist id s.bid_orders)
      · split
        · exact hb
        · exact hb
    · split
      · exact ha
      · split
        · exact ha.sublist (delFirst_sublist id s.ask_orders)
        · exact ha
  · exact ⟨hb, ha⟩

theorem on_trade_ticks_ladders (s : TraderState) (instrument : Instr)
    (askP bidP : List Int) (newVol : ℚ) :
    (on_trade_ticks s instrument askP bidP newVol).bid_orders = s.bid_orders ∧
    (on_trade_ticks s instrument askP bidP newVol).ask_orders = s.ask_orders := by
  simp only [on_trade_ticks]
  split
  · exact ⟨rfl, rfl⟩
  · split
    · exact ⟨rfl, rfl⟩
    · split
      · exact ⟨rfl, rfl⟩
      · exact ⟨rfl, rfl⟩

theorem step_sorted (s : TraderState) (e : Event)
    (hb : s.bid_orders.Pairwise (fun a b => b.price < a.price))
    (ha : s.ask_orders.Pairwise (fun a b => a.price < b.price)) :
    (step s e).1.bid_orders.Pairwise (fun a b => b.price < a.price) ∧
    (step s e).1.ask_orders.Pairwise (fun a b => a.price < b.price) := by
  cases e with
  | bookUpdate i sq ap av bp bv now t eL eH =>
    simp only [step, on_order_book_update]
    split
    · exact ⟨hb, ha⟩
    · refine repriceStep_sorted _ i bp ap t ?_ ?_
      · rw [update_order_book_bid_orders]
        split
        · rw [hedge_bid_orders]
          exact hb
        · exact hb
      · rw [update_order_book_ask_orders]
        split
        · rw [hedge_ask_orders]
          exact ha
        · exact ha
  | orderFilled id p v now eL eH =>
    constructor
    · rw [show (step s (Event.orderFilled id p v now eL eH)).1.bid_orders =
          (on_order_filled s id v now eL eH).1.bid_orders from rfl,
        on_order_filled_bid_orders]
      split
      · exact pairwise_price_of_map_eq (fun x y => y < x) _ s.bid_orders
          (decFirst_price_map id v s.bid_orders) hb
      · exact hb
    · rw [show (step s (Event.orderFilled id p v now eL eH)).1.ask_orders =
          (on_order_filled s id v now eL eH).1.ask_orders from rfl,
        on_order_filled_ask_orders]
      split
      · exact ha
      · split
        · exact pairwise_price_of_map_eq (fun x y => x < y) _ s.ask_orders
            (decFirst_price_map id v s.ask_orders) ha
        · exact ha
  | orderStatus id f r fee => exact on_order_status_sorted s id r hb ha
  | hedgeFilled id p v => exact ⟨hb, ha⟩
  | tradeTicks i sq ap av bp bv vol =>
    obtain ⟨h1, h2⟩ := on_trade_ticks_ladders s i ap bp vol
    constructor
    · rw [show (step s (Event.tradeTicks i sq ap av bp bv vol)).1.bid_orders =
          (on_trade_ticks s i ap bp vol).bid_orders from rfl, h1]
      exact hb
    · rw [show (step s (Event.tradeTicks i sq ap av bp bv vol)).1.ask_orders =
          (on_trade_ticks s i ap bp vol).ask_orders from rfl, h2]
      exact ha
  | errorMsg id =>
    simp only [step, on_error]
    split
    · exact on_order_status_sorted s id 0 hb ha
    · exact ⟨hb, ha⟩

/- ### C5 -/

/-- C5: in every reachable state — in particular after every reconciliation —
the bid ladder's prices are strictly descending in list order and the ask
ladder's prices strictly ascending. -/
theorem ladder_sort_invariant (s : TraderState) (h : Reachable s) :
    s.bid_orders.Pairwise (fun a b => b.price < a.price) ∧
    s.ask_orders.Pairwise (fun a b => a.price < b.price) := by
  induction h with
  | init => exact ⟨List.Pairwise.nil, List.Pairwise.nil⟩
  | step s e hs ih => exact step_sorted s e ih.1 ih.2

theorem ladder_sort_invariant_witness :
    (run [Event.bookUpdate Instr.future 1 [10050, 0, 0, 0, 0] [10, 0, 0, 0, 0]
        [9950, 0, 0, 0, 0] [10, 0, 0, 0, 0] 1 (9900, 10100) false
        false]).bid_orders.Pairwise (fun a b => b.price < a.price) ∧
    (run [Event.bookUpdate Instr.future 1 [10050, 0, 0, 0, 0] [10, 0, 0, 0, 0]
        [9950, 0, 0, 0, 0] [10, 0, 0, 0, 0] 1 (9900, 10100) false
        false]).ask_orders.Pairwise (fun a b => a.price < b.price) :=
  ladder_sort_invariant _ (reachable_run _)

/- ### Order-id tracking machinery -/

/-- At most one ladder entry per nonzero order id: any two entries either
involve an unassigned entry or carry different ids. -/
def uniqIds (a b : LadderEntry) : Prop :=
  a.order_id = 0 ∨ b.order_id = 0 ∨ a.order_id ≠ b.order_id

theorem decFirst_id_map (id : Nat) (v : Int) (l : List LadderEntry) :
    (decFirst id v l).map LadderEntry.order_id = l.map LadderEntry.order_id := by
  induction l with
  | nil => rfl
  | cons e l ih =>
    simp only [decFirst]
    split
    · simp
    · simp [ih]

theorem pairwise_id_of_map_eq (R : Nat → Nat → Prop) (l1 l2 : List LadderEntry)
    (hmap : l1.map LadderEntry.order_id = l2.map LadderEntry.order_id)
    (h : l2.Pairwise (fun a b => R a.order_id b.order_id)) :
    l1.Pairwise (fun a b => R a.order_id b.order_id) := by
  have h1 : (l2.map LadderEntry.order_id).Pairwise R := (List.pairwise_map).mpr h
  rw [← hmap] at h1
  exact (List.pairwise_map).mp h1

theorem mem_id_of_map_eq (l1 l2 : List LadderEntry)
    (hmap : l1.map LadderEntry.order_id = l2.map LadderEntry.order_id)
    (e : LadderEntry) (he : e ∈ l1) :
    ∃ x ∈ l2, x.order_id = e.order_id := by
  have h1 : e.order_id ∈ l2.map LadderEntry.order_id := by
    rw [← hmap]
    exact List.mem_map_of_mem _ he
  obtain ⟨x, hx, hxe⟩ := List.mem_map.mp h1
  exact ⟨x, hx, hxe⟩

theorem delFirst_no_id (id : Nat) (hid : id ≠ 0) :
    ∀ l : List LadderEntry, l.Pairwise uniqIds →
      ∀ e ∈ delFirst id l, e.order_id ≠ id := by
  intro l
  induction l with
  | nil => intro _ e he; simp [delFirst] at he
  | cons a l ih =>
    intro hp e he
    rcases List.pairwise_cons.mp hp with ⟨hal, hl⟩
    simp only [delFirst] at he
    split at he
    · rename_i haid
      have h2 := hal e he
      rcases h2 with h2 | h2 | h2
      · rw [haid] at h2; exact absurd h2 hid
      · rw [h2]; exact fun hc => hid hc.symm
      · rw [haid] at h2; exact fun hc => h2 hc.symm
    · rcases List.mem_cons.mp he with rfl | he2
      · rename_i haid
        exact haid
      · exact ih hl e he2

theorem setAdd_mem (id x : Nat) (l : List Nat) (h : x ∈ l) : x ∈ setAdd id l := by
  simp only [setAdd]
  split
  · exact h
  · exact List.mem_cons_of_mem _ h

theorem setAdd_self (id : Nat) (l : List Nat) : id ∈ setAdd id l := by
  simp only [setAdd]
  split
  · assumption
  · exact List.mem_cons_self _ _

theorem setAdd_cases (id x : Nat) (l : List Nat) (h : x ∈ setAdd id l) :
    x ∈ l ∨ x = id := by
  simp only [setAdd] at h
  split at h
  · exact Or.inl h
  · rcases List.mem_cons.mp h with rfl | h
    · exact Or.inr rfl
    · exact Or.inl h

/-- Every entry produced by bid-side reconciliation is either an original
entry or a fresh unassigned one. -/
theorem reconcileBids_mem (L : List LadderEntry) (nb : Int) :
    ∀ e ∈ (reconcileBids L nb).1, e ∈ L ∨ e.order_id = 0 := by
  intro e he
  simp only [reconcileBids] at he
  split at he
  · obtain ⟨p, hp, rfl⟩ := List.mem_map.mp he
    exact Or.inr rfl
  · obtain ⟨A, B, hAB⟩ := bidInsertLoop_shape (bid_price_list nb) []
      (popHelper L ((L.filter (fun e => decide (nb < e.price))).length)
        ((L.filter (fun e => decide (e.price <
          nb - (MAX_ORDER_TICKS : Int) * TICK_SIZE_IN_CENTS))).length)).1
    rw [hAB] at he
    rcases List.mem_append.mp he with he | he
    · rcases List.mem_append.mp he with he | he
      · obtain ⟨p, hp, rfl⟩ := List.mem_map.mp he
        exact Or.inr rfl
      · exact Or.inl ((popHelper_sublist _ _ _).mem he)
    · obtain ⟨p, hp, rfl⟩ := List.mem_map.mp he
      exact Or.inr rfl

theorem reconcileAsks_mem (L : List LadderEntry) (na : Int) :
    ∀ e ∈ (reconcileAsks L na).1, e ∈ L ∨ e.order_id = 0 := by
  intro e he
  simp only [reconcileAsks] at he
  split at he
  · obtain ⟨p, hp, rfl⟩ := List.mem_map.mp he
    exact Or.inr rfl
  · obtain ⟨A, B, hAB⟩ := askInsertLoop_shape (ask_price_list na) []
      (popHelper L ((L.filter (fun e => decide (e.price < na))).length)
        ((L.filter (fun e => decide (na + (MAX_ORDER_TICKS : Int) * TICK_SIZE_IN_CENTS
          < e.price))).length)).1
    rw [hAB] at he
    rcases List.mem_append.mp he with he | he
    · rcases List.mem_append.mp he with he | he
      · obtain ⟨p, hp, rfl⟩ := List.mem_map.mp he
        exact Or.inr rfl
      · exact Or.inl ((popHelper_sublist _ _ _).mem he)
    · obtain ⟨p, hp, rfl⟩ := List.mem_map.mp he
      exact Or.inr rfl

theorem pairwise_map_mkEntry_uniq (A : List Int) : (A.map mkEntry).Pairwise uniqIds := by
  induction A with
  | nil => exact List.Pairwise.nil
  | cons p A ih =>
    refine List.Pairwise.cons ?_ ih
    intro b _
    exact Or.inl rfl

/-- Padding a list with unassigned entries on both sides keeps the
at-most-one-entry-per-id property. -/
theorem pairwise_uniq_pad (A B : List Int) (M : List LadderEntry)
    (hM : M.Pairwise uniqIds) :
    (A.map mkEntry ++ M ++ B.map mkEntry).Pairwise uniqIds := by
  have hA : ∀ x ∈ A.map mkEntry, x.order_id = 0 := by
    intro x hx
    obtain ⟨p, _, rfl⟩ := List.mem_map.mp hx
    rfl
  have hB : ∀ x ∈ B.map mkEntry, x.order_id = 0 := by
    intro x hx
    obtain ⟨p, _, rfl⟩ := List.mem_map.mp hx
    rfl
  refine (List.pairwise_append).mpr
    ⟨(List.pairwise_append).mpr ⟨pairwise_map_mkEntry_uniq A, hM, ?_⟩,
      pairwise_map_mkEntry_uniq B, ?_⟩
  · intro x hx y _
    exact Or.inl (hA x hx)
  · intro x _ y hy
    exact Or.inr (Or.inl (hB y hy))

/-- Reconciliation keeps the at-most-one-entry-per-id property: survivors are
a sublist of the original ladder and all inserted entries are unassigned. -/
theorem reconcileBids_uniq (L : List LadderEntry) (nb : Int)
    (hu : L.Pairwise uniqIds) : (reconcileBids L nb).1.Pairwise uniqIds := by
  simp only [reconcileBids]
  split
  · exact pairwise_map_mkEntry_uniq _
  · obtain ⟨A, B, hAB⟩ := bidInsertLoop_shape (bid_price_list nb) []
      (popHelper L ((L.filter (fun e => decide (nb < e.price))).length)
        ((L.filter (fun e => decide (e.price <
          nb - (MAX_ORDER_TICKS : Int) * TICK_SIZE_IN_CENTS))).length)).1
    rw [hAB]
    exact pairwise_uniq_pad A B _ (hu.sublist (popHelper_sublist _ _ _))

theorem reconcileAsks_uniq (L : List LadderEntry) (na : Int)
    (hu : L.Pairwise uniqIds) : (reconcileAsks L na).1.Pairwise uniqIds := by
  simp only [reconcileAsks]
  split
  · exact pairwise_map_mkEntry_uniq _
  · obtain ⟨A, B, hAB⟩ := askInsertLoop_shape (ask_price_list na) []
      (popHelper L ((L.filter (fun e => decide (e.price < na))).length)
        ((L.filter (fun e => decide (na + (MAX_ORDER_TICKS : Int) * TICK_SIZE_IN_CENTS
          < e.price))).length)).1
    rw [hAB]
    exact pairwise_uniq_pad A B _ (hu.sublist (popHelper_sublist _ _ _))

theorem uniq_fresh (x : LadderEntry) (nid : Nat) (hx : x.order_id < nid)
    (e' : LadderEntry) (he' : e'.order_id = nid) : uniqIds x e' ∧ uniqIds e' x := by
  by_cases h0 : x.order_id = 0
  · exact ⟨Or.inl h0, Or.inr (Or.inl h0)⟩
  · exact ⟨Or.inr (Or.inr (by omega)), Or.inr (Or.inr (by omega))⟩

theorem pairwise_replace_mid (done rest : List LadderEntry) (e e' : LadderEntry)
    (hp : (done ++ e :: rest).Pairwise uniqIds)
    (hfresh : ∀ x ∈ done ++ rest, uniqIds x e' ∧ uniqIds e' x) :
    (done ++ e' :: rest).Pairwise uniqIds := by
  rw [List.pairwise_append] at hp ⊢
  obtain ⟨hd, her, hcross⟩ := hp
  rcases List.pairwise_cons.mp her with ⟨_, hrest⟩
  refine ⟨hd, List.pairwise_cons.mpr ⟨?_, hrest⟩, ?_⟩
  · intro b hb
    exact (hfresh b (List.mem_append.mpr (Or.inr hb))).2
  · intro x hx y hy
    rcases List.mem_cons.mp hy with rfl | hy2
    · exact (hfresh x (List.mem_append.mpr (Or.inl hx))).1
    · exact hcross x hx y (List.mem_cons_of_mem _ hy2)

/-- The placement loop assigns strictly increasing fresh order ids: every
resulting entry's id stays below the next id, at most one entry carries any
id, every assigned id is registered in the side's id set, and the id set only
grows by positive fresh ids. -/
theorem placeLoop_ids (side : Side) (pos avail : Int) (split : List ℚ)
    (oc small : Bool) :
    ∀ rest done i nid ids cs,
      0 < nid →
      (∀ e ∈ done, e.order_id < nid) →
      (∀ e ∈ rest, e.order_id < nid) →
      (done ++ rest).Pairwise uniqIds →
      (∀ e ∈ done, e.order_id ≠ 0 → e.order_id ∈ ids) →
      (∀ e ∈ rest, e.order_id ≠ 0 → e.order_id ∈ ids) →
      (∀ e ∈ (placeLoop side pos avail split oc small rest done i nid ids cs).1,
          e.order_id < (placeLoop side pos avail split oc small rest done i nid ids cs).2.1) ∧
      (placeLoop side pos avail split oc small rest done i nid ids cs).1.Pairwise uniqIds ∧
      (∀ e ∈ (placeLoop side pos avail split oc small rest done i nid ids cs).1,
          e.order_id ≠ 0 →
          e.order_id ∈ (placeLoop side pos avail split oc small rest done i nid ids cs).2.2.1) ∧
      nid ≤ (placeLoop side pos avail split oc small rest done i nid ids cs).2.1 ∧
      0 < (placeLoop side pos avail split oc small rest done i nid ids cs).2.1 ∧
      (∀ x ∈ (placeLoop side pos avail split oc small rest done i nid ids cs).2.2.1,
          x ∈ ids ∨ 0 < x) := by
  intro rest
  induction rest with
  | nil =>
    intro done i nid ids cs hnid hdb hrb hp hdm hrm
    simp only [placeLoop]
    refine ⟨hdb, by simpa using hp, hdm, le_refl _, hnid, fun x hx => Or.inl hx⟩
  | cons e rest ih =>
    intro done i nid ids cs hnid hdb hrb hp hdm hrm
    have hdb2 : ∀ x ∈ done ++ e :: rest, x.order_id < nid := by
      intro x hx
      rcases List.mem_append.mp hx with hx | hx
      · exact hdb x hx
      · exact hrb x hx
    simp only [placeLoop]
    split
    · exact ⟨hdb2, hp, by
        intro x hx h0
        rcases List.mem_append.mp hx with hx | hx
        · exact hdm x hx h0
        · exact hrm x hx h0, le_refl _, hnid, fun x hx => Or.inl hx⟩
    · split
      · -- guard true: assign a fresh id to this unassigned entry
        rename_i hguard
        have hfresh : ∀ x ∈ done ++ rest,
            uniqIds x ⟨e.price, nid, floorMulRat avail (split.getD i 0)⟩ ∧
            uniqIds ⟨e.price, nid, floorMulRat avail (split.getD i 0)⟩ x := by
          intro x hx
          refine uniq_fresh x nid ?_ _ rfl
          rcases List.mem_append.mp hx with hx | hx
          · exact hdb x hx
          · exact hrb x (List.mem_cons_of_mem _ hx)
        have hp2 : (done ++ ⟨e.price, nid, floorMulRat avail (split.getD i 0)⟩ :: rest).Pairwise
            uniqIds := pairwise_replace_mid done rest e _ hp hfresh
        split
        · -- schedule exhausted: return directly
          refine ⟨?_, hp2, ?_, Nat.le_succ nid, Nat.succ_pos nid, ?_⟩
          · intro x hx
            show x.order_id < nid + 1
            rcases List.mem_append.mp hx with hx | hx
            · have := hdb x hx
              omega
            · rcases List.mem_cons.mp hx with rfl | hx
              · simp
              · have := hrb x (List.mem_cons_of_mem _ hx)
                omega
          · intro x hx h0
            rcases List.mem_append.mp hx with hx | hx
            · exact setAdd_mem nid _ ids (hdm x hx h0)
            · rcases List.mem_cons.mp hx with rfl | hx
              · exact setAdd_self nid ids
              · exact setAdd_mem nid _ ids (hrm x (List.mem_cons_of_mem _ hx) h0)
          · intro x hx
            rcases setAdd_cases nid x ids hx with hx | rfl
            · exact Or.inl hx
            · exact Or.inr hnid
        · -- recurse after the assignment
          have hrec := ih (done ++ [⟨e.price, nid, floorMulRat avail (split.getD i 0)⟩])
            (i + 1) (nid + 1) (setAdd nid ids)
            (cs ++ [Command.insertOrder nid side e.price
              (floorMulRat avail (split.getD i 0)) Lifespan.goodForDay])
            (by omega)
            (by
              intro x hx
              rcases List.mem_append.mp hx with hx | hx
              · have := hdb x hx
                omega
              · rw [List.mem_singleton] at hx
                subst hx
                simp)
            (fun x hx => by have := hrb x (List.mem_cons_of_mem _ hx); omega)
            (by
              rw [List.append_assoc, List.singleton_append]
              exact hp2)
            (by
              intro x hx h0
              rcases List.mem_append.mp hx with hx | hx
              · exact setAdd_mem nid _ ids (hdm x hx h0)
              · rw [List.mem_singleton] at hx
                subst hx
                exact setAdd_self nid ids)
            (fun x hx h0 => setAdd_mem nid _ ids (hrm x (List.mem_cons_of_mem _ hx) h0))
          refine ⟨hrec.1, hrec.2.1, hrec.2.2.1, by omega, hrec.2.2.2.2.1, ?_⟩
          intro x hx
          rcases hrec.2.2.2.2.2 x hx with hx2 | hx2
          · rcases setAdd_cases nid x ids hx2 with hx3 | rfl
            · exact Or.inl hx3
            · exact Or.inr hnid
          · exact Or.inr hx2
      · -- guard false: skip this entry
        split
        · exact ⟨hdb2, hp, by
            intro x hx h0
            rcases List.mem_append.mp hx with hx | hx
            · exact hdm x hx h0
            · exact hrm x hx h0, le_refl _, hnid, fun x hx => Or.inl hx⟩
        · have hrec := ih (done ++ [e]) i nid ids cs hnid
            (by
              intro x hx
              rcases List.mem_append.mp hx with hx | hx
              · exact hdb x hx
              · rw [List.mem_singleton] at hx
                subst hx
                exact hrb x (List.mem_cons_self x rest))
            (fun x hx => hrb x (List.mem_cons_of_mem _ hx))
            (by
              rw [List.append_assoc, List.singleton_append]
              exact hp)
            (by
              intro x hx h0
              rcases List.mem_append.mp hx with hx | hx
              · exact hdm x hx h0
              · rw [List.mem_singleton] at hx
                subst hx
                exact hrm x (List.mem_cons_self x rest) h0)
            (fun x hx h0 => hrm x (List.mem_cons_of_mem _ hx) h0)
          exact hrec

/-- The id-tracking invariant: positive id counter, no zero id in either set,
every nonzero ladder id registered in its side's set, at most one entry per
id, and all ladder ids below the counter. -/
def idsOk (s : TraderState) : Prop :=
  0 < s.next_order_id ∧
  0 ∉ s.bids ∧
  0 ∉ s.asks ∧
  (∀ e ∈ s.bid_orders, e.order_id ≠ 0 → e.order_id ∈ s.bids) ∧
  (∀ e ∈ s.ask_orders, e.order_id ≠ 0 → e.order_id ∈ s.asks) ∧
  s.bid_orders.Pairwise uniqIds ∧
  s.ask_orders.Pairwise uniqIds ∧
  (∀ e ∈ s.bid_orders, e.order_id < s.next_order_id) ∧
  (∀ e ∈ s.ask_orders, e.order_id < s.next_order_id)

theorem place_orders_idsOk (s : TraderState) (oc : Bool) (h : idsOk s) :
    idsOk (place_orders s oc).1 := by
  obtain ⟨h1, h2, h3, h4, h5, h6, h7, h8, h9⟩ := h
  have key : ∀ (side : Side) (pos avail : Int) (split : List ℚ) (small : Bool)
      (L : List LadderEntry) (nid0 : Nat) (ids0 : List Nat),
      0 < nid0 →
      (∀ e ∈ L, e.order_id < nid0) →
      L.Pairwise uniqIds →
      (∀ e ∈ L, e.order_id ≠ 0 → e.order_id ∈ ids0) →
      (∀ e ∈ (placeLoop side pos avail split oc small L [] 0 nid0 ids0 []).1,
          e.order_id < (placeLoop side pos avail split oc small L [] 0 nid0 ids0 []).2.1) ∧
      (placeLoop side pos avail split oc small L [] 0 nid0 ids0 []).1.Pairwise uniqIds ∧
      (∀ e ∈ (placeLoop side pos avail split oc small L [] 0 nid0 ids0 []).1,
          e.order_id ≠ 0 →
          e.order_id ∈ (placeLoop side pos avail split oc small L [] 0 nid0 ids0 []).2.2.1) ∧
      nid0 ≤ (placeLoop side pos avail split oc small L [] 0 nid0 ids0 []).2.1 ∧
      0 < (placeLoop side pos avail split oc small L [] 0 nid0 ids0 []).2.1 ∧
      (∀ x ∈ (placeLoop side pos avail split oc small L [] 0 nid0 ids0 []).2.2.1,
          x ∈ ids0 ∨ 0 < x) := by
    intro side pos avail split small L nid0 ids0 ha hb hc hd
    exact placeLoop_ids side pos avail split oc small L [] 0 nid0 ids0 []
      ha (by simp) hb (by simpa using hc) (by simp) hd
  simp only [place_orders, idsOk]
  refine ⟨?_, ?_, ?_, ?_, ?_, ?_, ?_, ?_, ?_⟩
  · exact (key Side.ask _ _ _ _ s.ask_orders _ s.asks
      (key Side.bid _ _ _ _ s.bid_orders s.next_order_id s.bids h1 h8 h6 h4).2.2.2.2.1
      (fun e he => lt_of_lt_of_le (h9 e he)
        (key Side.bid _ _ _ _ s.bid_orders s.next_order_id s.bids h1 h8 h6 h4).2.2.2.1)
      h7 h5).2.2.2.2.1
  · intro hc
    rcases (key Side.bid _ _ _ _ s.bid_orders s.next_order_id s.bids h1 h8 h6 h4).2.2.2.2.2
        0 hc with hx | hx
    · exact h2 hx
    · exact absurd hx (by omega)
  · intro hc
    rcases (key Side.ask _ _ _ _ s.ask_orders _ s.asks
        (key Side.bid _ _ _ _ s.bid_orders s.next_order_id s.bids h1 h8 h6 h4).2.2.2.2.1
        (fun e he => lt_of_lt_of_le (h9 e he)
          (key Side.bid _ _ _ _ s.bid_orders s.next_order_id s.bids h1 h8 h6 h4).2.2.2.1)
        h7 h5).2.2.2.2.2 0 hc with hx | hx
    · exact h3 hx
    · exact absurd hx (by omega)
  · exact (key Side.bid _ _ _ _ s.bid_orders s.next_order_id s.bids h1 h8 h6 h4).2.2.1
  · exact (key Side.ask _ _ _ _ s.ask_orders _ s.asks
      (key Side.bid _ _ _ _ s.bid_orders s.next_order_id s.bids h1 h8 h6 h4).2.2.2.2.1
      (fun e he => lt_of_lt_of_le (h9 e he)
        (key Side.bid _ _ _ _ s.bid_orders s.next_order_id s.bids h1 h8 h6 h4).2.2.2.1)
      h7 h5).2.2.1
  · exact (key Side.bid _ _ _ _ s.bid_orders s.next_order_id s.bids h1 h8 h6 h4).2.1
  · exact (key Side.ask _ _ _ _ s.ask_orders _ s.asks
      (key Side.bid _ _ _ _ s.bid_orders s.next_order_id s.bids h1 h8 h6 h4).2.2.2.2.1
      (fun e he => lt_of_lt_of_le (h9 e he)
        (key Side.bid _ _ _ _ s.bid_orders s.next_order_id s.bids h1 h8 h6 h4).2.2.2.1)
      h7 h5).2.1
  · exact fun e he => lt_of_lt_of_le
      ((key Side.bid _ _ _ _ s.bid_orders s.next_order_id s.bids h1 h8 h6 h4).1 e he)
      (key Side.ask _ _ _ _ s.ask_orders _ s.asks
        (key Side.bid _ _ _ _ s.bid_orders s.next_order_id s.bids h1 h8 h6 h4).2.2.2.2.1
        (fun e2 he2 => lt_of_lt_of_le (h9 e2 he2)
          (key Side.bid _ _ _ _ s.bid_orders s.next_order_id s.bids h1 h8 h6 h4).2.2.2.1)
        h7 h5).2.2.2.1
  · exact (key Side.ask _ _ _ _ s.ask_orders _ s.asks
      (key Side.bid _ _ _ _ s.bid_orders s.next_order_id s.bids h1 h8 h6 h4).2.2.2.2.1
      (fun e he => lt_of_lt_of_le (h9 e he)
        (key Side.bid _ _ _ _ s.bid_orders s.next_order_id s.bids h1 h8 h6 h4).2.2.2.1)
      h7 h5).1

theorem hedge_idsOk (s : TraderState) (dr : ℚ) (eL eH : Bool) (h : idsOk s) :
    idsOk (hedge s dr eL eH).1 := by
  obtain ⟨h1, h2, h3, h4, h5, h6, h7, h8, h9⟩ := h
  simp only [hedge, idsOk]
  split
  · exact ⟨by show 0 < s.next_order_id + 1; omega, h2, h3, h4, h5, h6, h7,
      fun e he => by
        have := h8 e he
        show e.order_id < s.next_order_id + 1
        omega,
      fun e he => by
        have := h9 e he
        show e.order_id < s.next_order_id + 1
        omega⟩
  split
  · exact ⟨by show 0 < s.next_order_id + 1; omega, h2, h3, h4, h5, h6, h7,
      fun e he => by
        have := h8 e he
        show e.order_id < s.next_order_id + 1
        omega,
      fun e he => by
        have := h9 e he
        show e.order_id < s.next_order_id + 1
        omega⟩
  · exact ⟨h1, h2, h3, h4, h5, h6, h7, h8, h9⟩

theorem update_order_book_idsOk (s : TraderState) (instrument : Instr)
    (askP askV bidP bidV : List Int) (h : idsOk s) :
    idsOk (update_order_book s instrument askP askV bidP bidV) := by
  obtain ⟨e, f, hsh⟩ := update_order_book_shape s instrument askP askV bidP bidV
  rw [hsh]
  exact h

theorem repriceStep_idsOk (s : TraderState) (instrument : Instr)
    (bidP askP : List Int) (targets : Int × Int) (h : idsOk s) :
    idsOk (repriceStep s instrument bidP askP targets).1 := by
  obtain ⟨h1, h2, h3, h4, h5, h6, h7, h8, h9⟩ := h
  simp only [repriceStep]
  split
  · exact ⟨h1, h2, h3, h4, h5, h6, h7, h8, h9⟩
  · split
    · exact ⟨h1, h2, h3, h4, h5, h6, h7, h8, h9⟩
    · split
      · exact ⟨h1, h2, h3, h4, h5, h6, h7, h8, h9⟩
      · apply place_orders_idsOk
        refine ⟨h1, h2, h3, ?_, ?_, ?_, ?_, ?_, ?_⟩
        · intro e he h0
          rcases reconcileBids_mem s.bid_orders targets.1 e he with he2 | he2
          · exact h4 e he2 h0
          · exact absurd he2 h0
        · intro e he h0
          rcases reconcileAsks_mem s.ask_orders targets.2 e he with he2 | he2
          · exact h5 e he2 h0
          · exact absurd he2 h0
        · exact reconcileBids_uniq s.bid_orders targets.1 h6
        · exact reconcileAsks_uniq s.ask_orders targets.2 h7
        · intro e he
          rcases reconcileBids_mem s.bid_orders targets.1 e he with he2 | he2
          · exact h8 e he2
          · rw [he2]
            exact h1
        · intro e he
          rcases reconcileAsks_mem s.ask_orders targets.2 e he with he2 | he2
          · exact h9 e he2
          · rw [he2]
            exact h1

theorem on_order_status_idsOk (s : TraderState) (id : Nat) (r : Int)
    (h : idsOk s) : idsOk (on_order_status s id r).1 := by
  obtain ⟨h1, h2, h3, h4, h5, h6, h7, h8, h9⟩ := h
  simp only [on_order_status]
  split
  · apply place_orders_idsOk
    split
    · rename_i hmem
      have hid0 : id ≠ 0 := fun hc => h2 (hc ▸ hmem)
      refine ⟨h1, fun hc => h2 (List.mem_of_mem_erase hc), h3, ?_, h5, ?_, h7, ?_, h9⟩
      · intro e he h0
        have hne := delFirst_no_id id hid0 s.bid_orders h6 e he
        exact List.mem_erase_of_ne hne |>.mpr
          (h4 e ((delFirst_sublist id s.bid_orders).mem he) h0)
      · exact h6.sublist (delFirst_sublist id s.bid_orders)
      · exact fun e he => h8 e ((delFirst_sublist id s.bid_orders).mem he)
    · split
      · rename_i hnb hmem
        have hid0 : id ≠ 0 := fun hc => h3 (hc ▸ hmem)
        refine ⟨h1, h2, fun hc => h3 (List.mem_of_mem_erase hc), h4, ?_, h6, ?_, h8, ?_⟩
        · intro e he h0
          have hne := delFirst_no_id id hid0 s.ask_orders h7 e he
          exact List.mem_erase_of_ne hne |>.mpr
            (h5 e ((delFirst_sublist id s.ask_orders).mem he) h0)
        · exact h7.sublist (delFirst_sublist id s.ask_orders)
        · exact fun e he => h9 e ((delFirst_sublist id s.ask_orders).mem he)
      · exact ⟨h1, h2, h3, h4, h5, h6, h7, h8, h9⟩
  · exact ⟨h1, h2, h3, h4, h5, h6, h7, h8, h9⟩

theorem on_order_filled_idsOk (s : TraderState) (id : Nat) (v : Int)
    (now : Int) (eL eH : Bool) (h : idsOk s) :
    idsOk (on_order_filled s id v now eL eH).1 := by
  obtain ⟨h1, h2, h3, h4, h5, h6, h7, h8, h9⟩ := h
  have hbid : idsOk { s with
      bid_orders := decFirst id v s.bid_orders
      position := s.position + v } := by
    refine ⟨h1, h2, h3, ?_, h5, ?_, h7, ?_, h9⟩
    · intro e he h0
      obtain ⟨x, hx, hxe⟩ := mem_id_of_map_eq _ s.bid_orders
        (decFirst_id_map id v s.bid_orders) e he
      rw [← hxe]
      exact h4 x hx (by rw [hxe]; exact h0)
    · exact pairwise_id_of_map_eq (fun x y => x = 0 ∨ y = 0 ∨ x ≠ y)
        _ s.bid_orders (decFirst_id_map id v s.bid_orders) h6
    · intro e he
      obtain ⟨x, hx, hxe⟩ := mem_id_of_map_eq _ s.bid_orders
        (decFirst_id_map id v s.bid_orders) e he
      rw [← hxe]
      exact h8 x hx
  have hask : idsOk { s with
      ask_orders := decFirst id v s.ask_orders
      position := s.position - v } := by
    refine ⟨h1, h2, h3, h4, ?_, h6, ?_, h8, ?_⟩
    · intro e he h0
      obtain ⟨x, hx, hxe⟩ := mem_id_of_map_eq _ s.ask_orders
        (decFirst_id_map id v s.ask_orders) e he
      rw [← hxe]
      exact h5 x hx (by rw [hxe]; exact h0)
    · exact pairwise_id_of_map_eq (fun x y => x = 0 ∨ y = 0 ∨ x ≠ y)
        _ s.ask_orders (decFirst_id_map id v s.ask_orders) h7
    · intro e he
      obtain ⟨x, hx, hxe⟩ := mem_id_of_map_eq _ s.ask_orders
        (decFirst_id_map id v s.ask_orders) e he
      rw [← hxe]
      exact h9 x hx
  have hnone : idsOk s := ⟨h1, h2, h3, h4, h5, h6, h7, h8, h9⟩
  simp only [on_order_filled]
  apply hedge_idsOk
  repeat' split
  all_goals first
    | exact hbid
    | exact hask
    | exact hnone

theorem on_trade_ticks_idsOk (s : TraderState) (instrument : Instr)
    (askP bidP : List Int) (newVol : ℚ) (h : idsOk s) :
    idsOk (on_trade_ticks s instrument askP bidP newVol) := by
  simp only [on_trade_ticks]
  split
  · exact h
  · split
    · exact h
    · split
      · exact h
      · exact h

theorem on_order_book_update_idsOk (s : TraderState) (instrument : Instr)
    (sq : Nat) (askP askV bidP bidV : List Int) (now : Int) (targets : Int × Int)
    (eL eH : Bool) (h : idsOk s) :
    idsOk (on_order_book_update s instrument sq askP askV bidP bidV now targets eL eH).1 := by
  simp only [on_order_book_update]
  split
  · exact h
  · apply repriceStep_idsOk
    apply update_order_book_idsOk
    split
    · exact hedge_idsOk _ _ _ _ h
    · exact h

theorem step_idsOk (s : TraderState) (e : Event) (h : idsOk s) :
    idsOk (step s e).1 := by
  cases e with
  | bookUpdate i sq ap av bp bv now t eL eH =>
    exact on_order_book_update_idsOk s i sq ap av bp bv now t eL eH h
  | orderFilled id p v now eL eH => exact on_order_filled_idsOk s id v now eL eH h
  | orderStatus id f r fee => exact on_order_status_idsOk s id r h
  | hedgeFilled id p v => exact h
  | tradeTicks i sq ap av bp bv vol => exact on_trade_ticks_idsOk s i ap bp vol h
  | errorMsg id =>
    simp only [step, on_error]
    split
    · exact on_order_status_idsOk s id 0 h
    · exact h

theorem reachable_idsOk (s : TraderState) (h : Reachable s) : idsOk s := by
  induction h with
  | init =>
    refine ⟨Nat.one_pos, ?_, ?_, ?_, ?_, ?_, ?_, ?_, ?_⟩ <;>
      simp [initState]
  | step s e hs ih => exact step_idsOk s e ih

/- ### C8 -/

/-- Trace refuting C8: a book update quotes orders 1-6, then a repricing to
lower targets pops the three bid entries (orders 1-3, cancels sent) and quotes
fresh bids (orders 7-9).  `pop_helper` removes the ladder entries but never
touches the `bids` set, so the retired ids 1-3 stay in the set with no ladder
entry until a terminal status arrives. -/
def c8Trace : List Event :=
  [Event.bookUpdate Instr.future 1 [10050, 0, 0, 0, 0] [10, 0, 0, 0, 0]
      [9950, 0, 0, 0, 0] [10, 0, 0, 0, 0] 1 (9900, 10100) false false,
   Event.bookUpdate Instr.future 2 [9750, 0, 0, 0, 0] [10, 0, 0, 0, 0]
      [9650, 0, 0, 0, 0] [10, 0, 0, 0, 0] 2 (9600, 9800) false false]

/-- C8 is false as stated: in the reachable state after `c8Trace`, order id 1
— a ladder order (its insert command was emitted by the first event), not a
hedge or arbitrage order, whose ladder entry was removed by the reconciliation
cancel of the second event — is still in the `bids` set while no bid ladder
entry carries it. -/
theorem order_id_tracking_counterexample :
    Reachable (run c8Trace) ∧
    Command.insertOrder 1 Side.bid 9900 30 Lifespan.goodForDay
      ∈ (step initState (c8Trace.headD (Event.errorMsg 0))).2 ∧
    Command.cancelOrder 1 ∈ (step (step initState (c8Trace.headD (Event.errorMsg 0))).1
      (c8Trace.getD 1 (Event.errorMsg 0))).2 ∧
    1 ∈ (run c8Trace).bids ∧
    ∀ e ∈ (run c8Trace).bid_orders, e.order_id ≠ 1 :=
  ⟨reachable_run c8Trace, by decide, by decide, by decide, by decide⟩

/-- C8 (amended): in every reachable state, every ladder entry with a nonzero
order id is registered in the corresponding outstanding-order set, and no id
appears on more than one entry of a ladder (so each registered id has at most
one entry).  The converse direction of the original claim fails: the sets may
additionally hold ids of retired orders — entries removed by a reconciliation
cancel — until the terminal order-status (or error) for that id arrives and
discards them (see the counterexample). -/
theorem order_id_tracking (s : TraderState) (h : Reachable s) :
    (∀ e ∈ s.bid_orders, e.order_id ≠ 0 → e.order_id ∈ s.bids) ∧
    (∀ e ∈ s.ask_orders, e.order_id ≠ 0 → e.order_id ∈ s.asks) ∧
    s.bid_orders.Pairwise uniqIds ∧
    s.ask_orders.Pairwise uniqIds := by
  obtain ⟨h1, h2, h3, h4, h5, h6, h7, h8, h9⟩ := reachable_idsOk s h
  exact ⟨h4, h5, h6, h7⟩

theorem order_id_tracking_witness :
    (∀ e ∈ (run c8Trace).bid_orders, e.order_id ≠ 0 → e.order_id ∈ (run c8Trace).bids) ∧
    (∀ e ∈ (run c8Trace).ask_orders, e.order_id ≠ 0 → e.order_id ∈ (run c8Trace).asks) ∧
    (run c8Trace).bid_orders.Pairwise uniqIds ∧
    (run c8Trace).ask_orders.Pairwise uniqIds :=
  order_id_tracking (run c8Trace) (reachable_run c8Trace)
